import Mathlib

/-!
Verification of the `lsmtree` storage engine (Go).

Shallow embedding: byte strings are `List Nat`, files are byte lists, the
in-memory state of the engine is an explicit structure, and every fallible
Go function is modelled as a function into an explicit result type.  Go
runtime panics (integer division by zero, slice index out of range) are
modelled as explicit error values.  Filesystem IO is modelled as pure state
passing; IO failures of the host system are out of scope.
-/

namespace LsmTree

/-- Byte strings (`[]byte` in Go) are lists of naturals.  A `nil` slice and
an empty slice both become `[]`; where Go distinguishes them (tombstones)
the model uses `Option Bytes` instead. -/
abbrev Bytes := List Nat

/-- Go `bytes.Compare`: byte-wise lexicographic comparison, a shorter
prefix compares less. -/
def bytesCompare : Bytes → Bytes → Ordering
  | [], [] => .eq
  | [], _ :: _ => .lt
  | _ :: _, [] => .gt
  | a :: as, b :: bs =>
    if a < b then .lt else if b < a then .gt else bytesCompare as bs

/-- `encodeInt` from `encoding.go`: the 8-byte big-endian encoding of
`uint64(x)`.  The `% 256` on the top byte realises the wrap of the
`uint64` conversion. -/
def encodeInt (x : Nat) : Bytes :=
  [x / 2 ^ 56 % 256, x / 2 ^ 48 % 256, x / 2 ^ 40 % 256, x / 2 ^ 32 % 256,
   x / 2 ^ 24 % 256, x / 2 ^ 16 % 256, x / 2 ^ 8 % 256, x % 256]

/-- `decodeInt` from `encoding.go`: big-endian `uint64` read of the first
8 bytes.  Go panics when fewer than 8 bytes are present; callers of this
model check the length first and report the panic themselves. -/
def decodeInt (l : Bytes) : Nat :=
  l.getD 0 0 * 2 ^ 56 + l.getD 1 0 * 2 ^ 48 + l.getD 2 0 * 2 ^ 40 +
    l.getD 3 0 * 2 ^ 32 + l.getD 4 0 * 2 ^ 24 + l.getD 5 0 * 2 ^ 16 +
    l.getD 6 0 * 2 ^ 8 + l.getD 7 0

/-- `encodeIntPair` from `encoding.go`: two 8-byte big-endian integers.
Negative inputs (`maxSsTableIndex = -1`) wrap as `uint64(x)` does. -/
def encodeIntPair (x y : Int) : Bytes :=
  encodeInt (x % (2 ^ 64 : Int)).toNat ++ encodeInt (y % (2 ^ 64 : Int)).toNat

/-- `encode` from `encoding.go`: frame layout
`[8+len(key)+len(value) : u64 BE][len(key) : u64 BE][key][value]`.
A tombstone is passed as an empty `value`. -/
def encode (key value : Bytes) : Bytes :=
  encodeInt (8 + key.length + value.length) ++ encodeInt key.length ++ key ++ value

/-- `encode` applied to a memtable entry: Go passes `nil` for a
tombstone, and `len(nil) = 0`. -/
def encodeRec (key : Bytes) (value : Option Bytes) : Bytes :=
  encode key (value.getD [])

/-- Result of one `decode` call from `encoding.go`.  `eofClean` stands for
a returned `io.EOF` (which every caller in the repository treats as end of
stream); `corrupted` is the explicit short-entry error; `goPanic` marks an
input on which the Go code would panic (zero or short entry length making
a slice expression go out of range). -/
inductive DecodeResult where
  | ok (key : Bytes) (value : Option Bytes) (rest : Bytes)
  | eofClean
  | corrupted
  | goPanic
  deriving DecidableEq, Repr

/-- `decode` from `encoding.go`.  The 8-byte length buffer is
zero-initialised and filled by a single read, so fewer than 8 available
bytes leave trailing zeros, exactly as the Go code's single `r.Read`
does; a read of a positive-length entry from an exhausted stream yields
`io.EOF`, which the function returns unchanged (`eofClean` here). -/
def decode (input : Bytes) : DecodeResult :=
  if input = [] then .eofClean
  else
    let hdr := input.take 8 ++ List.replicate (8 - input.length) 0
    let entryLen := decodeInt hdr
    let rest0 := input.drop 8
    if entryLen = 0 then .goPanic
    else if rest0.length = 0 then .eofClean
    else if rest0.length < entryLen then .corrupted
    else
      let entry := rest0.take entryLen
      if entryLen < 8 then .goPanic
      else
        let keyLen := decodeInt (entry.take 8)
        if 8 + keyLen > entryLen then .goPanic
        else
          let key := (entry.drop 8).take keyLen
          if 8 + keyLen = entryLen then .ok key none (rest0.drop entryLen)
          else .ok key (some ((entry.drop 8).drop keyLen)) (rest0.drop entryLen)

theorem encodeInt_length (x : Nat) : (encodeInt x).length = 8 := rfl

theorem decodeInt_encodeInt (x : Nat) (h : x < 2 ^ 64) :
    decodeInt (encodeInt x) = x := by
  simp [decodeInt, encodeInt]
  omega

/-- Core codec round trip: decoding a frame produced by `encode` returns
the key, the value (`none` for a zero-length value), and exactly the
bytes that follow the frame. -/
theorem decode_encode (key value rest : Bytes)
    (hk : key.length ≤ 65535) (hv : value.length ≤ 65535) :
    decode (encode key value ++ rest) =
      .ok key (if value.isEmpty then none else some value) rest := by
  have hK64 : key.length < 2 ^ 64 := by omega
  have hL64 : 8 + key.length + value.length < 2 ^ 64 := by omega
  have hsplit : encode key value ++ rest =
      encodeInt (8 + key.length + value.length) ++
        (encodeInt key.length ++ (key ++ (value ++ rest))) := by
    simp [encode]
  rw [hsplit]
  have h8 : (encodeInt (8 + key.length + value.length)).length = 8 := encodeInt_length _
  have h8K : (encodeInt key.length).length = 8 := encodeInt_length _
  have hne : encodeInt (8 + key.length + value.length) ++
      (encodeInt key.length ++ (key ++ (value ++ rest))) ≠ [] := by
    simp [encodeInt]
  have hlen : (encodeInt (8 + key.length + value.length) ++
      (encodeInt key.length ++ (key ++ (value ++ rest)))).length =
      16 + key.length + value.length + rest.length := by
    simp [encodeInt]
    omega
  have htake : (encodeInt (8 + key.length + value.length) ++
      (encodeInt key.length ++ (key ++ (value ++ rest)))).take 8 =
      encodeInt (8 + key.length + value.length) := List.take_left' h8
  have hdrop : (encodeInt (8 + key.length + value.length) ++
      (encodeInt key.length ++ (key ++ (value ++ rest)))).drop 8 =
      encodeInt key.length ++ (key ++ (value ++ rest)) := List.drop_left' h8
  have hassoc : encodeInt key.length ++ (key ++ (value ++ rest)) =
      (encodeInt key.length ++ (key ++ value)) ++ rest := by
    simp only [List.append_assoc]
  have hmidlen : (encodeInt key.length ++ (key ++ value)).length =
      8 + key.length + value.length := by
    simp [encodeInt]
    omega
  have hrest0len : (encodeInt key.length ++ (key ++ (value ++ rest))).length =
      8 + key.length + value.length + rest.length := by
    simp [encodeInt]
    omega
  have hEntryTake : (encodeInt key.length ++ (key ++ (value ++ rest))).take
      (8 + key.length + value.length) = encodeInt key.length ++ (key ++ value) := by
    rw [hassoc]
    exact List.take_left' hmidlen
  have hEntryDrop : (encodeInt key.length ++ (key ++ (value ++ rest))).drop
      (8 + key.length + value.length) = rest := by
    rw [hassoc]
    exact List.drop_left' hmidlen
  have hTake8 : (encodeInt key.length ++ (key ++ value)).take 8 =
      encodeInt key.length := List.take_left' h8K
  have hDrop8 : (encodeInt key.length ++ (key ++ value)).drop 8 =
      key ++ value := List.drop_left' h8K
  have hKeyTake : (key ++ value).take key.length = key := List.take_left key value
  have hKeyDrop : (key ++ value).drop key.length = value := List.drop_left key value
  rw [decode, if_neg hne]
  simp only [htake, hlen, hdrop]
  rw [show 8 - (16 + key.length + value.length + rest.length) = 0 by omega]
  simp only [List.replicate_zero, List.append_nil, decodeInt_encodeInt _ hL64,
    decodeInt_encodeInt _ hK64, hrest0len]
  rw [if_neg (by omega), if_neg (by omega),
    if_neg (by omega :
      ¬(8 + key.length + value.length + rest.length < 8 + key.length + value.length))]
  simp only [hEntryTake, hEntryDrop, hTake8, hDrop8, decodeInt_encodeInt _ hK64,
    hKeyTake, hKeyDrop]
  rw [if_neg (by omega), if_neg (by omega)]
  by_cases hvnil : value = []
  · subst hvnil
    simp
  · have hvlen : value.length ≠ 0 := by simpa [List.length_eq_zero] using hvnil
    have hvempty : value.isEmpty = false := by simp [List.isEmpty_iff, hvnil]
    rw [if_neg (by omega), hvempty]
    simp

/-- A successful `decode` strictly consumes input; this drives the
termination of every read loop below. -/
theorem decode_ok_length {input keyB : Bytes} {value : Option Bytes} {rest : Bytes}
    (h : decode input = .ok keyB value rest) : rest.length < input.length := by
  unfold decode at h
  split at h
  · simp at h
  next hne =>
    simp only at h
    split at h
    · simp at h
    · split at h
      · simp at h
      · split at h
        · simp at h
        · split at h
          · simp at h
          · split at h
            · simp at h
            · split at h <;>
              · next =>
                rw [DecodeResult.ok.injEq] at h
                obtain ⟨-, -, hrest⟩ := h
                subst hrest
                have hlen : input.length ≠ 0 := by
                  simpa [List.length_eq_zero] using hne
                simp only [List.length_drop]
                omega

theorem bytesCompare_eq_iff : ∀ a b : Bytes, bytesCompare a b = .eq ↔ a = b
  | [], [] => by simp [bytesCompare]
  | [], _ :: _ => by simp [bytesCompare]
  | _ :: _, [] => by simp [bytesCompare]
  | a :: as, b :: bs => by
    simp only [bytesCompare]
    by_cases hab : a < b
    · rw [if_pos hab]
      constructor
      · intro h
        simp at h
      · intro h
        injection h with h1 _
        exact absurd h1 (by omega)
    · by_cases hba : b < a
      · rw [if_neg hab, if_pos hba]
        constructor
        · intro h
          simp at h
        · intro h
          injection h with h1 _
          exact absurd h1 (by omega)
      · have hcab : a = b := by omega
        subst hcab
        rw [if_neg hab, if_neg hba, bytesCompare_eq_iff as bs]
        simp

theorem bytesCompare_self (a : Bytes) : bytesCompare a a = .eq :=
  (bytesCompare_eq_iff a a).mpr rfl

theorem bytesCompare_gt_iff_lt : ∀ a b : Bytes,
    bytesCompare a b = .gt ↔ bytesCompare b a = .lt
  | [], [] => by simp [bytesCompare]
  | [], _ :: _ => by simp [bytesCompare]
  | _ :: _, [] => by simp [bytesCompare]
  | a :: as, b :: bs => by
    simp only [bytesCompare]
    by_cases hab : a < b
    · rw [if_pos hab, if_neg (show ¬b < a by omega), if_pos hab]
      simp
    · by_cases hba : b < a
      · rw [if_neg hab, if_pos hba, if_pos hba]
        simp
      · rw [if_neg hab, if_neg hba, if_neg hba, if_neg hab]
        exact bytesCompare_gt_iff_lt as bs

theorem bytesCompare_lt_ne {a b : Bytes} (h : bytesCompare a b = .lt) : a ≠ b := by
  intro hab
  rw [hab, bytesCompare_self] at h
  exact absurd h (by simp)

theorem bytesCompare_cons_lt_iff {a b : Nat} {as bs : Bytes} :
    bytesCompare (a :: as) (b :: bs) = .lt ↔
      a < b ∨ (a = b ∧ bytesCompare as bs = .lt) := by
  simp only [bytesCompare]
  by_cases hab : a < b
  · rw [if_pos hab]
    simp [hab]
  · by_cases hba : b < a
    · rw [if_neg hab, if_pos hba]
      constructor
      · intro h
        simp at h
      · intro h
        rcases h with h | ⟨h, -⟩ <;> omega
    · have hcab : a = b := by omega
      subst hcab
      rw [if_neg hab, if_neg hba]
      simp

theorem bytesCompare_lt_trans :
    ∀ {a b c : Bytes}, bytesCompare a b = .lt → bytesCompare b c = .lt →
      bytesCompare a c = .lt
  | [], [], _, h, _ => by simp [bytesCompare] at h
  | [], _ :: _, [], _, h => by simp [bytesCompare] at h
  | [], _ :: _, _ :: _, _, _ => rfl
  | _ :: _, [], _, h, _ => by simp [bytesCompare] at h
  | _ :: _, _ :: _, [], _, h => by simp [bytesCompare] at h
  | a :: as, b :: bs, c :: cs, h₁, h₂ => by
    rw [bytesCompare_cons_lt_iff] at h₁ h₂ ⊢
    rcases h₁ with h₁ | ⟨rfl, h₁⟩
    · rcases h₂ with h₂ | ⟨rfl, h₂⟩
      · exact Or.inl (by omega)
      · exact Or.inl h₁
    · rcases h₂ with h₂ | ⟨rfl, h₂⟩
      · exact Or.inl h₂
      · exact Or.inr ⟨rfl, bytesCompare_lt_trans h₁ h₂⟩

/-- A record: key plus value, `none` being a tombstone. -/
abbrev Entry := Bytes × Option Bytes

/-- The key order used throughout: strict ascending `bytes.Compare`. -/
def entryLt (x y : Entry) : Prop := bytesCompare x.1 y.1 = .lt

instance : DecidableRel entryLt := fun x y => by
  unfold entryLt
  infer_instance

/-- Strictly-ascending key order, the invariant of memtable iteration and
of every sorted-run data file. -/
def SortedEntries (l : List Entry) : Prop := l.Pairwise entryLt

instance : DecidablePred SortedEntries := fun l => by
  unfold SortedEntries
  infer_instance

/-- Modelled from the spec: the ordered-map substrate of the memtable
(`rbtree` from `github.com/Khighness/gokit`, an external dependency whose
source is not part of this repository).  Spec §4.1 allows any ordered map
over byte-string keys with byte-wise lexicographic comparison; it is
modelled as an ascending association list.  `treePut` returns the new
tree together with the previous value (`none` when the key was absent),
the contract `rbtree.Tree.Put` exposes as `(prev, exists)`. -/
def treePut : List Entry → Bytes → Option Bytes → List Entry × Option (Option Bytes)
  | [], k, v => ([(k, v)], none)
  | (k', v') :: t, k, v =>
    match bytesCompare k k' with
    | .lt => ((k, v) :: (k', v') :: t, none)
    | .eq => ((k, v) :: t, some v')
    | .gt =>
      let r := treePut t k v
      ((k', v') :: r.1, r.2)

/-- Modelled from the spec: `rbtree.Tree.Get`, returning the stored value
(`(value, exists)` in Go becomes an outer `Option`). -/
def treeGet : List Entry → Bytes → Option (Option Bytes)
  | [], _ => none
  | (k', v') :: t, k => if k = k' then some v' else treeGet t k

/-- Every key of the result of `treePut` is the inserted key or an
original key. -/
theorem treePut_mem {d : List Entry} {k : Bytes} {v : Option Bytes} {x : Entry}
    (hx : x ∈ (treePut d k v).1) : x.1 = k ∨ x ∈ d := by
  induction d with
  | nil =>
    simp [treePut] at hx
    simp [hx]
  | cons hd t ih =>
    obtain ⟨k', v'⟩ := hd
    simp only [treePut] at hx
    cases hc : bytesCompare k k' <;> simp only [hc] at hx
    · rw [List.mem_cons] at hx
      rcases hx with rfl | hx
      · exact Or.inl rfl
      · exact Or.inr hx
    · rw [List.mem_cons] at hx
      rcases hx with rfl | hx
      · exact Or.inl rfl
      · exact Or.inr (List.mem_cons_of_mem _ hx)
    · rw [List.mem_cons] at hx
      rcases hx with rfl | hx
      · exact Or.inr (List.mem_cons_self _ _)
      · rcases ih hx with h | h
        · exact Or.inl h
        · exact Or.inr (List.mem_cons_of_mem _ h)

/-- `treePut` preserves the sorted invariant. -/
theorem treePut_sorted {d : List Entry} {k : Bytes} {v : Option Bytes}
    (hd : SortedEntries d) : SortedEntries (treePut d k v).1 := by
  induction d with
  | nil =>
    simp [treePut, SortedEntries]
  | cons hd' t ih =>
    obtain ⟨k', v'⟩ := hd'
    rw [SortedEntries, List.pairwise_cons] at hd
    obtain ⟨hlt, ht⟩ := hd
    simp only [treePut]
    cases hc : bytesCompare k k'
    · rw [SortedEntries, List.pairwise_cons]
      refine ⟨?_, ?_⟩
      · intro x hx
        rw [List.mem_cons] at hx
        rcases hx with rfl | hx
        · exact hc
        · exact bytesCompare_lt_trans hc (hlt x hx)
      · rw [List.pairwise_cons]
        exact ⟨hlt, ht⟩
    · rw [bytesCompare_eq_iff] at hc
      subst hc
      rw [SortedEntries, List.pairwise_cons]
      exact ⟨hlt, ht⟩
    · rw [SortedEntries, List.pairwise_cons]
      refine ⟨?_, ih ht⟩
      intro x hx
      rcases treePut_mem hx with h | hx'
      · have hk : bytesCompare k' x.1 = Ordering.lt := by
          rw [h]
          exact (bytesCompare_gt_iff_lt _ _).mp hc
        exact hk
      · exact hlt x hx'

/-- On a sorted tree, the previous value returned by `treePut` is exactly
the current binding of the key. -/
theorem treePut_prev {d : List Entry} {k : Bytes} {v : Option Bytes}
    (hd : SortedEntries d) : (treePut d k v).2 = treeGet d k := by
  induction d with
  | nil => simp [treePut, treeGet]
  | cons hd' t ih =>
    obtain ⟨k', v'⟩ := hd'
    rw [SortedEntries, List.pairwise_cons] at hd
    obtain ⟨hlt, ht⟩ := hd
    simp only [treePut, treeGet]
    cases hc : bytesCompare k k'
    · have hne : k ≠ k' := bytesCompare_lt_ne hc
      rw [if_neg hne]
      -- k is below every key of the tail, hence absent from it
      have : treeGet t k = none := by
        clear ih
        induction t with
        | nil => simp [treeGet]
        | cons x xs ihx =>
          have hx : entryLt (k', v') x := hlt x (List.mem_cons_self _ _)
          have hkx : bytesCompare k x.1 = Ordering.lt := bytesCompare_lt_trans hc hx
          obtain ⟨xk, xv⟩ := x
          simp only [treeGet]
          rw [if_neg (bytesCompare_lt_ne hkx)]
          refine ihx ?_ ?_
          · intro y hy
            exact hlt y (List.mem_cons_of_mem _ hy)
          · exact (List.pairwise_cons.mp ht).2
      simp [this]
    · rw [bytesCompare_eq_iff] at hc
      rw [if_pos hc]
    · have hne : k ≠ k' := by
        intro h
        rw [h, bytesCompare_self] at hc
        exact absurd hc (by simp)
      rw [if_neg hne]
      exact ih ht

/-- Total byte size charged by the memtable: Σ (len key + len value),
tombstones counting zero. -/
def optLen (v : Option Bytes) : Nat := (v.getD []).length

def entriesBytes : List Entry → Int
  | [] => 0
  | (k, v) :: t => (k.length : Int) + optLen v + entriesBytes t

/-- Byte-size change of a `treePut`: the fresh-key case adds
`len k + len v`, the overwrite case adds `len v - len prev`. -/
theorem entriesBytes_treePut (d : List Entry) (k : Bytes) (v : Option Bytes) :
    entriesBytes (treePut d k v).1 =
      match (treePut d k v).2 with
      | none => entriesBytes d + k.length + optLen v
      | some prev => entriesBytes d + optLen v - optLen prev := by
  induction d with
  | nil => simp [treePut, entriesBytes]
  | cons hd' t ih =>
    obtain ⟨k', v'⟩ := hd'
    simp only [treePut]
    cases hc : bytesCompare k k'
    · simp only [entriesBytes]
      ring
    · rw [bytesCompare_eq_iff] at hc
      subst hc
      simp only [entriesBytes]
      ring
    · simp only [entriesBytes]
      rcases hr : (treePut t k v).2 with - | prev <;> rw [hr] at ih <;>
        simp only [ih] <;> ring


/-- `memTable` from `memtable.go`: the ordered map plus the running byte
count `b`. -/
structure MemTable where
  data : List Entry
  b : Int
  deriving Repr, DecidableEq

/-- `newMemTable` from `memtable.go`. -/
def newMemTable : MemTable := ⟨[], 0⟩

/-- `memTable.put` from `memtable.go`: on overwrite the size changes by
`len(value) - len(prev)`, on a fresh key by `len(key) + len(value)`. -/
def memPut (mt : MemTable) (key : Bytes) (value : Option Bytes) : MemTable :=
  match treePut mt.data key value with
  | (d, some prev) => ⟨d, mt.b + (optLen value : Int) - optLen prev⟩
  | (d, none) => ⟨d, mt.b + key.length + optLen value⟩

/-- `memTable.delete` from `memtable.go` (only WAL replay calls it). -/
def memDelete (mt : MemTable) (key : Bytes) : MemTable :=
  match treePut mt.data key none with
  | (d, some prev) => ⟨d, mt.b - optLen prev⟩
  | (d, none) => ⟨d, mt.b + key.length⟩

/-- `memTable.get` from `memtable.go`: `(value, exists)` becomes an outer
`Option`; an inner `none` is a resident tombstone. -/
def memGet (mt : MemTable) (key : Bytes) : Option (Option Bytes) :=
  treeGet mt.data key

/-- The memtable invariant: entries ascending and `b` equal to the total
byte size of the resident entries. -/
def WellFormedMT (mt : MemTable) : Prop :=
  SortedEntries mt.data ∧ mt.b = entriesBytes mt.data

theorem memPut_wf {mt : MemTable} {k : Bytes} {v : Option Bytes}
    (h : WellFormedMT mt) : WellFormedMT (memPut mt k v) := by
  obtain ⟨hs, hb⟩ := h
  have hput := entriesBytes_treePut mt.data k v
  unfold memPut
  rcases hr : treePut mt.data k v with ⟨d, prev⟩
  have hd : d = (treePut mt.data k v).1 := by rw [hr]
  have hprev : prev = (treePut mt.data k v).2 := by rw [hr]
  rcases prev with - | p
  · rw [← hprev] at hput
    simp only at hput
    refine ⟨hd ▸ treePut_sorted hs, ?_⟩
    rw [hd, hput, hb]
  · rw [← hprev] at hput
    simp only at hput
    refine ⟨hd ▸ treePut_sorted hs, ?_⟩
    rw [hd, hput, hb]

theorem memDelete_wf {mt : MemTable} {k : Bytes}
    (h : WellFormedMT mt) : WellFormedMT (memDelete mt k) := by
  obtain ⟨hs, hb⟩ := h
  have hput := entriesBytes_treePut mt.data k none
  unfold memDelete
  rcases hr : treePut mt.data k none with ⟨d, prev⟩
  have hd : d = (treePut mt.data k none).1 := by rw [hr]
  have hprev : prev = (treePut mt.data k none).2 := by rw [hr]
  rcases prev with - | p
  · rw [← hprev] at hput
    simp only at hput
    refine ⟨hd ▸ treePut_sorted hs, ?_⟩
    rw [hd, hput, hb]
    simp [optLen]
  · rw [← hprev] at hput
    simp only at hput
    refine ⟨hd ▸ treePut_sorted hs, ?_⟩
    rw [hd, hput, hb]
    simp [optLen]

/-- Overwrite delta: with the key already bound to `old`, `memPut`
changes `b` by exactly `len v - len old`. -/
theorem memPut_overwrite {mt : MemTable} {k : Bytes} {v old : Option Bytes}
    (hs : SortedEntries mt.data) (hold : memGet mt k = some old) :
    (memPut mt k v).b = mt.b + optLen v - optLen old := by
  have hprev : (treePut mt.data k v).2 = some old := by
    rw [treePut_prev hs]
    exact hold
  unfold memPut
  rcases hr : treePut mt.data k v with ⟨d, prev⟩
  rw [hr] at hprev
  simp only at hprev
  subst hprev
  simp

/-- Fresh-key delta. -/
theorem memPut_fresh {mt : MemTable} {k : Bytes} {v : Option Bytes}
    (hs : SortedEntries mt.data) (hnone : memGet mt k = none) :
    (memPut mt k v).b = mt.b + k.length + optLen v := by
  have hprev : (treePut mt.data k v).2 = none := by
    rw [treePut_prev hs]
    exact hnone
  unfold memPut
  rcases hr : treePut mt.data k v with ⟨d, prev⟩
  rw [hr] at hprev
  simp only at hprev
  subst hprev
  simp

/-- Modelled from the spec: `encodeKeyOffset`, called by the sorted-run
writer but missing from the provided sources.  Spec §4.2: the dense and
sparse index files reuse the record framing with the 8-byte BE offset as
the value. -/
def encodeKeyOffset (key : Bytes) (offset : Nat) : Bytes :=
  encode key (encodeInt offset)

/-- A Go runtime failure or IO-level error observable in this pure
model. -/
inductive GoErr where
  | divByZero
  | fileNotFound
  | corrupted
  | slicePanic
  | emptyDataFile
  | seekNegative
  deriving Repr, DecidableEq

/-- `ssTableWriter` from the sstable source: the three output files plus
`keyNum`, `dataPos`, `indexPos`. -/
structure WriterState where
  dataFile : Bytes
  indexFile : Bytes
  sparseIndexFile : Bytes
  sparseKeyDistance : Nat
  keyNum : Nat
  dataPos : Nat
  indexPos : Nat
  deriving Repr, DecidableEq

/-- `newSsTableWriter`: freshly truncated files and zero counters. -/
def newSsTableWriter (sparseKeyDistance : Nat) : WriterState :=
  ⟨[], [], [], sparseKeyDistance, 0, 0, 0⟩

/-- `ssTableWriter.write`: append the record frame to the data file, a
`(key, old dataPos)` entry to the dense index, and, when
`keyNum % sparseKeyDistance == 0`, a `(key, old indexPos)` entry to the
sparse index.  Go's `%` panics when the divisor is 0 — the panic aborts
the process and is returned as `divByZero` here (the partially written
files are unobservable after the crash and are not modelled). -/
def ssTableWrite (w : WriterState) (key : Bytes) (value : Option Bytes) :
    Except GoErr WriterState :=
  let dataBytes := encodeRec key value
  let indexBytes := encodeKeyOffset key w.dataPos
  if w.sparseKeyDistance = 0 then .error .divByZero
  else
    .ok { w with
      dataFile := w.dataFile ++ dataBytes
      indexFile := w.indexFile ++ indexBytes
      sparseIndexFile :=
        if w.keyNum % w.sparseKeyDistance = 0 then
          w.sparseIndexFile ++ encodeKeyOffset key w.indexPos
        else w.sparseIndexFile
      keyNum := w.keyNum + 1
      dataPos := w.dataPos + dataBytes.length
      indexPos := w.indexPos + indexBytes.length }

/-- Writing a whole record sequence through the writer. -/
def writeAll (recs : List Entry) (w : WriterState) : Except GoErr WriterState :=
  recs.foldlM (fun w e => ssTableWrite w e.1 e.2) w

/-- `createSsTable` from the sstable source: stream the memtable
(ascending order, tombstones included) through a fresh writer; `sync`
and `close` carry no content in the pure model. -/
def createSsTable (mt : MemTable) (sparseKeyDistance : Nat) :
    Except GoErr WriterState :=
  writeAll mt.data (newSsTableWriter sparseKeyDistance)

/-- The data-file frame of one record. -/
def frameOf (e : Entry) : Bytes := encodeRec e.1 e.2

/-- Data-file image of a record sequence. -/
def runData (recs : List Entry) : Bytes := (recs.map frameOf).flatten

/-- Dense-index entries for records laid out from byte offset `pos`. -/
def denseEntries : List Entry → Nat → List (Bytes × Nat)
  | [], _ => []
  | e :: t, pos => (e.1, pos) :: denseEntries t (pos + (frameOf e).length)

/-- Byte image of the dense index. -/
def denseIndexBytes (recs : List Entry) (pos : Nat) : Bytes :=
  ((denseEntries recs pos).map fun p => encodeKeyOffset p.1 p.2).flatten

/-- The size of one dense-index entry for a record (the stored offset is
always 8 bytes, so the size does not depend on it). -/
def indexFrameLen (e : Entry) : Nat := (encodeKeyOffset e.1 0).length

/-- Sparse-index entries: the records whose running ordinal is divisible
by `n`, paired with the dense-index offset at which their entry starts. -/
def sparseEntries : List Entry → Nat → Nat → Nat → List (Bytes × Nat)
  | [], _, _, _ => []
  | e :: t, num, ipos, n =>
    (if num % n = 0 then [(e.1, ipos)] else []) ++
      sparseEntries t (num + 1) (ipos + indexFrameLen e) n

/-- Byte image of the sparse index. -/
def sparseIndexBytes (recs : List Entry) (num ipos n : Nat) : Bytes :=
  ((sparseEntries recs num ipos n).map fun p => encodeKeyOffset p.1 p.2).flatten

/-- A record the engine can produce: bounded key, and a value that is
either a tombstone or a bounded non-empty byte string. -/
def ValidEntry (e : Entry) : Prop :=
  e.1.length ≤ 65535 ∧ e.2 ≠ some [] ∧ optLen e.2 ≤ 65535

instance : DecidablePred ValidEntry := fun e => by
  unfold ValidEntry
  infer_instance

/-- Decoding one frame of a valid record returns it exactly. -/
theorem decode_frameOf (e : Entry) (rest : Bytes) (he : ValidEntry e) :
    decode (frameOf e ++ rest) = .ok e.1 e.2 rest := by
  obtain ⟨k, v⟩ := e
  obtain ⟨hk, hvne, hvlen⟩ := he
  rcases v with - | v
  · simpa using decode_encode k [] rest hk (by simp)
  · have hvne' : v ≠ [] := by
      intro hcon
      exact hvne (by rw [hcon])
    have hlen : v.length ≤ 65535 := by simpa [optLen] using hvlen
    have := decode_encode k v rest hk hlen
    rw [frameOf]
    simp only [encodeRec, Option.getD_some]
    rw [this, if_neg (by simpa [List.isEmpty_iff] using hvne')]

/-- `newDataFileIterator` plus repeated `next` from `merge.go`,
collapsed into one reading pass: collect records until EOF.  A corrupted
or panicking decode is the error the iterator would surface.  The loop
is bounded by a fuel counter so that it stays a structural recursion; a
successful `decode` consumes at least 16 bytes, so the byte length the
wrapper passes can never run out (the fuel-0 branch is unreachable). -/
def decodeAllRecordsF : Nat → Bytes → Except GoErr (List Entry)
  | 0, _ => .error .corrupted
  | fuel + 1, input =>
    match decode input with
    | .ok k v rest =>
      match decodeAllRecordsF fuel rest with
      | .ok l => .ok ((k, v) :: l)
      | .error e => .error e
    | .eofClean => .ok []
    | .corrupted => .error .corrupted
    | .goPanic => .error .slicePanic

def decodeAllRecords (input : Bytes) : Except GoErr (List Entry) :=
  decodeAllRecordsF (input.length + 1) input

theorem decodeAllRecordsF_runData (recs : List Entry) (fuel : Nat)
    (hv : ∀ e ∈ recs, ValidEntry e) (hf : (runData recs).length < fuel) :
    decodeAllRecordsF fuel (runData recs) = .ok recs := by
  induction recs generalizing fuel with
  | nil =>
    match fuel, hf with
    | f + 1, _ =>
      rw [decodeAllRecordsF]
      simp [runData, decode]
  | cons e t ih =>
    have hsplit : runData (e :: t) = frameOf e ++ runData t := by
      simp [runData]
    match fuel, hf with
    | f + 1, hf =>
      have hdec := decode_frameOf e (runData t) (hv e (List.mem_cons_self _ _))
      have hlt : (runData t).length < f := by
        rw [hsplit, List.length_append] at hf
        have : 16 ≤ (frameOf e).length := by
          simp [frameOf, encodeRec, encode, encodeInt]
        omega
      have ht := ih f (fun x hx => hv x (List.mem_cons_of_mem _ hx)) hlt
      rw [hsplit, decodeAllRecordsF, hdec]
      simp [ht]

/-- Reading back a written data file yields the records in written
order. -/
theorem decodeAllRecords_runData (recs : List Entry)
    (hv : ∀ e ∈ recs, ValidEntry e) :
    decodeAllRecords (runData recs) = .ok recs :=
  decodeAllRecordsF_runData recs _ hv (Nat.lt_succ_self _)

theorem exceptOkBind {α β ε : Type} (a : α) (f : α → Except ε β) :
    ((Except.ok a : Except ε α) >>= f) = f a := rfl

theorem runData_nil : runData [] = [] := rfl

theorem runData_cons (e : Entry) (t : List Entry) :
    runData (e :: t) = frameOf e ++ runData t := by
  simp [runData]

theorem encodeKeyOffset_length (k : Bytes) (off : Nat) :
    (encodeKeyOffset k off).length = 24 + k.length := by
  simp [encodeKeyOffset, encode, encodeInt]
  omega

theorem denseIndexBytes_nil (pos : Nat) : denseIndexBytes [] pos = [] := rfl

theorem denseIndexBytes_cons (e : Entry) (t : List Entry) (pos : Nat) :
    denseIndexBytes (e :: t) pos =
      encodeKeyOffset e.1 pos ++ denseIndexBytes t (pos + (frameOf e).length) := by
  simp [denseIndexBytes, denseEntries]

theorem sparseIndexBytes_nil (num ipos n : Nat) :
    sparseIndexBytes [] num ipos n = [] := rfl

theorem sparseIndexBytes_cons (e : Entry) (t : List Entry) (num ipos n : Nat) :
    sparseIndexBytes (e :: t) num ipos n =
      (if num % n = 0 then encodeKeyOffset e.1 ipos else []) ++
        sparseIndexBytes t (num + 1) (ipos + indexFrameLen e) n := by
  simp only [sparseIndexBytes, sparseEntries]
  split <;> simp

/-- One successful write step (positive sparse distance). -/
theorem ssTableWrite_ok (w : WriterState) (key : Bytes) (value : Option Bytes)
    (hN : 0 < w.sparseKeyDistance) :
    ssTableWrite w key value = .ok { w with
      dataFile := w.dataFile ++ encodeRec key value
      indexFile := w.indexFile ++ encodeKeyOffset key w.dataPos
      sparseIndexFile :=
        if w.keyNum % w.sparseKeyDistance = 0 then
          w.sparseIndexFile ++ encodeKeyOffset key w.indexPos
        else w.sparseIndexFile
      keyNum := w.keyNum + 1
      dataPos := w.dataPos + (encodeRec key value).length
      indexPos := w.indexPos + (encodeKeyOffset key w.dataPos).length } := by
  rw [ssTableWrite, if_neg (by omega)]

/-- Full characterisation of a writer run, generalised over the
starting state: the three files receive exactly the record frames, the
dense-index entries starting at `dataPos`, and the sparse-index entries
for running ordinals divisible by the sparse distance. -/
theorem writeAll_ok (recs : List Entry) (w : WriterState)
    (hN : 0 < w.sparseKeyDistance) :
    writeAll recs w = .ok { w with
      dataFile := w.dataFile ++ runData recs
      indexFile := w.indexFile ++ denseIndexBytes recs w.dataPos
      sparseIndexFile := w.sparseIndexFile ++
        sparseIndexBytes recs w.keyNum w.indexPos w.sparseKeyDistance
      keyNum := w.keyNum + recs.length
      dataPos := w.dataPos + (runData recs).length
      indexPos := w.indexPos + (denseIndexBytes recs w.dataPos).length } := by
  induction recs generalizing w with
  | nil =>
    simp only [writeAll, List.foldlM_nil, runData_nil, denseIndexBytes_nil,
      sparseIndexBytes_nil, List.append_nil, List.length_nil, Nat.add_zero]
    rfl
  | cons e t ih =>
    obtain ⟨k, v⟩ := e
    rw [writeAll, List.foldlM_cons, ssTableWrite_ok w k v hN, exceptOkBind]
    rw [show ∀ (l : List Entry) (w' : WriterState),
        List.foldlM (fun w e => ssTableWrite w e.1 e.2) w' l = writeAll l w' from
      fun l w' => rfl]
    rw [ih _ (by simpa using hN)]
    simp only [Except.ok.injEq]
    rw [runData_cons, denseIndexBytes_cons, sparseIndexBytes_cons]
    rw [WriterState.mk.injEq]
    have hifl : indexFrameLen (k, v) = (encodeKeyOffset k w.dataPos).length := by
      simp [indexFrameLen, encodeKeyOffset_length]
    refine ⟨?_, ?_, ?_, rfl, ?_, ?_, ?_⟩
    · simp [frameOf, List.append_assoc]
    · simp [frameOf, List.append_assoc]
    · rw [hifl]
      split <;> simp [List.append_assoc]
    · simp only [List.length_cons]
      omega
    · simp only [frameOf, List.length_append]
      omega
    · simp only [frameOf, List.length_append]
      omega

/-- Byte offset of record `i` inside the data file. -/
def dataOffset (recs : List Entry) (i : Nat) : Nat :=
  (runData (recs.take i)).length

theorem denseEntries_length (recs : List Entry) (pos : Nat) :
    (denseEntries recs pos).length = recs.length := by
  induction recs generalizing pos with
  | nil => simp [denseEntries]
  | cons e t ih => simp [denseEntries, ih]

/-- Dense-index entry `i` pairs record `i`'s key with its byte offset in
the data file. -/
theorem denseEntries_getElem (recs : List Entry) (pos i : Nat) :
    (denseEntries recs pos)[i]? =
      (recs[i]?).map fun e => (e.1, pos + dataOffset recs i) := by
  induction recs generalizing pos i with
  | nil => simp [denseEntries]
  | cons e t ih =>
    cases i with
    | zero => simp [denseEntries, dataOffset, runData]
    | succ j =>
      have hoff : dataOffset (e :: t) (j + 1) = (frameOf e).length + dataOffset t j := by
        simp [dataOffset, runData, List.take_succ_cons]
      simp only [denseEntries, List.getElem?_cons_succ, ih, hoff]
      rcases t[j]? with - | x <;> simp [Nat.add_assoc]

theorem sparseEntries_length (recs : List Entry) (num ipos n : Nat) (hn : 0 < n) :
    (sparseEntries recs num ipos n).length =
      (num + recs.length + n - 1) / n - (num + n - 1) / n := by
  induction recs generalizing num ipos with
  | nil => simp [sparseEntries]
  | cons e t ih =>
    have hsd := Nat.succ_div (num + n - 1) n
    have h3 : num + n - 1 + 1 = num + n := by omega
    rw [h3] at hsd
    have hdvd : n ∣ num + n ↔ num % n = 0 := by
      rw [Nat.dvd_add_self_right]
      exact Nat.dvd_iff_mod_eq_zero
    have hmono : (num + n) / n ≤ (num + t.length + n) / n :=
      Nat.div_le_div_right (by omega)
    have hstep := ih (num + 1) (ipos + indexFrameLen e)
    simp only [sparseEntries, List.length_append, hstep, List.length_cons]
    have h1 : num + 1 + t.length + n - 1 = num + t.length + n := by omega
    have h2 : num + (t.length + 1) + n - 1 = num + t.length + n := by omega
    have h4 : num + 1 + n - 1 = num + n := by omega
    rw [h1, h2, h4]
    by_cases hm : num % n = 0
    · rw [if_pos hm]
      rw [if_pos (hdvd.mpr hm)] at hsd
      simp only [List.length_cons, List.length_nil]
      omega
    · rw [if_neg hm]
      rw [if_neg (fun hc => hm (hdvd.mp hc))] at hsd
      simp only [List.length_nil]
      omega

/-- At ordinal 0 the sparse index holds one entry per `n` records:
`⌈len / n⌉` of them. -/
theorem sparseEntries_length_zero (recs : List Entry) (ipos n : Nat) (hn : 0 < n) :
    (sparseEntries recs 0 ipos n).length = (recs.length + n - 1) / n := by
  rw [sparseEntries_length recs 0 ipos n hn]
  simp only [Nat.zero_add]
  rw [show (n - 1) / n = 0 from Nat.div_eq_of_lt (by omega)]
  exact Nat.sub_zero _

/-- The keys in the sparse index are exactly the keys of the records
whose running ordinal is divisible by `n`. -/
theorem sparseEntries_keys (recs : List Entry) (num ipos n : Nat) :
    (sparseEntries recs num ipos n).map Prod.fst =
      ((recs.enumFrom num).filter fun p => p.1 % n = 0).map fun p => p.2.1 := by
  induction recs generalizing num ipos with
  | nil => simp [sparseEntries]
  | cons e t ih =>
    simp only [sparseEntries, List.enumFrom_cons, List.filter_cons]
    by_cases hm : num % n = 0
    · simp only [hm, decide_True, if_pos trivial, List.map_append, List.map_cons]
      simp [ih]
    · simp only [hm, decide_False]
      simp [ih, hm]

/-- The first record's key is always the first sparse-index entry. -/
theorem sparseEntries_first (e : Entry) (t : List Entry) (ipos n : Nat) :
    (sparseEntries (e :: t) 0 ipos n).head? = some (e.1, ipos) := by
  simp [sparseEntries, Nat.zero_mod]

/-- `merge` from `merge.go`, at the level of the record sequences the
two data-file iterators deliver.  Each Go loop iteration loads a missing
current record from either side and emits one record: equal keys emit
the newer side `b` and drop both; otherwise the smaller key is emitted
and advanced.  One equation per loop situation. -/
def mergeRecs : List Entry → List Entry → List Entry
  | [], bs => bs
  | as, [] => as
  | a :: as, b :: bs =>
    match bytesCompare a.1 b.1 with
    | .eq => b :: mergeRecs as bs
    | .gt => b :: mergeRecs (a :: as) bs
    | .lt => a :: mergeRecs as (b :: bs)
termination_by as bs => as.length + bs.length

/-- First binding of a key in a record sequence (the read order of
`searchInDataFile`). -/
def lookupEntries : List Entry → Bytes → Option (Option Bytes)
  | [], _ => none
  | e :: t, k => if e.1 = k then some e.2 else lookupEntries t k

theorem lookupEntries_none_of_lt {l : List Entry} {k : Bytes}
    (h : ∀ e ∈ l, bytesCompare k e.1 = .lt) : lookupEntries l k = none := by
  induction l with
  | nil => rfl
  | cons e t ih =>
    rw [lookupEntries]
    have hne : e.1 ≠ k := fun hc =>
      bytesCompare_lt_ne (h e (List.mem_cons_self _ _)) hc.symm
    rw [if_neg hne]
    exact ih fun x hx => h x (List.mem_cons_of_mem _ hx)

theorem mergeRecs_mem : ∀ {a b : List Entry} {x : Entry},
    x ∈ mergeRecs a b → x ∈ a ∨ x ∈ b
  | [], bs, x, hx => Or.inr (by simpa [mergeRecs] using hx)
  | a :: as, [], x, hx => Or.inl (by simpa [mergeRecs] using hx)
  | a :: as, b :: bs, x, hx => by
    rw [mergeRecs] at hx
    cases hc : bytesCompare a.1 b.1 <;> rw [hc] at hx
    · -- lt: a emitted
      rw [List.mem_cons] at hx
      rcases hx with rfl | hx
      · exact Or.inl (List.mem_cons_self _ _)
      · rcases mergeRecs_mem hx with h | h
        · exact Or.inl (List.mem_cons_of_mem _ h)
        · exact Or.inr h
    · -- eq: b emitted, both dropped
      rw [List.mem_cons] at hx
      rcases hx with rfl | hx
      · exact Or.inr (List.mem_cons_self _ _)
      · rcases mergeRecs_mem hx with h | h
        · exact Or.inl (List.mem_cons_of_mem _ h)
        · exact Or.inr (List.mem_cons_of_mem _ h)
    · -- gt: b emitted
      rw [List.mem_cons] at hx
      rcases hx with rfl | hx
      · exact Or.inr (List.mem_cons_self _ _)
      · rcases mergeRecs_mem hx with h | h
        · exact Or.inl h
        · exact Or.inr (List.mem_cons_of_mem _ h)
termination_by a b => a.length + b.length

/-- The two-pointer merge of two ascending runs is ascending. -/
theorem mergeRecs_sorted : ∀ {a b : List Entry},
    SortedEntries a → SortedEntries b → SortedEntries (mergeRecs a b)
  | [], bs, _, hb => by simpa [mergeRecs] using hb
  | a :: as, [], ha, _ => by simpa [mergeRecs] using ha
  | a :: as, b :: bs, ha, hb => by
    rw [SortedEntries, List.pairwise_cons] at ha hb
    obtain ⟨halt, ha'⟩ := ha
    obtain ⟨hblt, hb'⟩ := hb
    rw [mergeRecs]
    cases hc : bytesCompare a.1 b.1
    · -- lt: a emitted before merging as with (b :: bs)
      rw [SortedEntries, List.pairwise_cons]
      refine ⟨?_, mergeRecs_sorted ha' (List.pairwise_cons.mpr ⟨hblt, hb'⟩)⟩
      intro x hx
      rcases mergeRecs_mem hx with h | h
      · exact halt x h
      · rw [List.mem_cons] at h
        rcases h with rfl | h
        · exact hc
        · exact bytesCompare_lt_trans hc (hblt x h)
    · -- eq: b emitted before merging as with bs
      rw [bytesCompare_eq_iff] at hc
      rw [SortedEntries, List.pairwise_cons]
      refine ⟨?_, mergeRecs_sorted ha' hb'⟩
      intro x hx
      rcases mergeRecs_mem hx with h | h
      · have hax : bytesCompare a.1 x.1 = .lt := halt x h
        rw [hc] at hax
        exact hax
      · exact hblt x h
    · -- gt: b emitted before merging (a :: as) with bs
      rw [SortedEntries, List.pairwise_cons]
      have hba : bytesCompare b.1 a.1 = .lt := (bytesCompare_gt_iff_lt _ _).mp hc
      refine ⟨?_, mergeRecs_sorted (List.pairwise_cons.mpr ⟨halt, ha'⟩) hb'⟩
      intro x hx
      rcases mergeRecs_mem hx with h | h
      · rw [List.mem_cons] at h
        rcases h with rfl | h
        · exact hba
        · exact bytesCompare_lt_trans hba (halt x h)
      · exact hblt x h
termination_by a b => a.length + b.length

/-- Newer-wins union: a key found in `b` resolves to its `b` value, a
key only in `a` to its `a` value, a key in neither to nothing. -/
theorem mergeRecs_lookup : ∀ {a b : List Entry} (k : Bytes),
    SortedEntries a → SortedEntries b →
    lookupEntries (mergeRecs a b) k =
      match lookupEntries b k with
      | some v => some v
      | none => lookupEntries a k
  | [], bs, k, _, _ => by
    rw [mergeRecs]
    rcases h : lookupEntries bs k with - | v <;> simp [lookupEntries]
  | a :: as, [], k, _, _ => by
    have hm : mergeRecs (a :: as) [] = a :: as := by
      simp [mergeRecs]
    rw [hm]
    rfl
  | a :: as, b :: bs, k, ha, hb => by
    rw [SortedEntries, List.pairwise_cons] at ha hb
    obtain ⟨halt, ha'⟩ := ha
    obtain ⟨hblt, hb'⟩ := hb
    rw [mergeRecs]
    cases hc : bytesCompare a.1 b.1
    · -- a.1 < b.1 : emit a
      by_cases hk : a.1 = k
      · subst hk
        have hnb : lookupEntries (b :: bs) a.1 = none := by
          refine lookupEntries_none_of_lt ?_
          intro e he
          rw [List.mem_cons] at he
          rcases he with rfl | he
          · exact hc
          · exact bytesCompare_lt_trans hc (hblt e he)
        rw [hnb]
        simp [lookupEntries]
      · rw [lookupEntries, if_neg hk,
          mergeRecs_lookup k ha' (List.pairwise_cons.mpr ⟨hblt, hb'⟩)]
        rw [show lookupEntries (a :: as) k = lookupEntries as k from by
          rw [lookupEntries, if_neg hk]]
    · -- equal keys: emit b, drop both
      rw [bytesCompare_eq_iff] at hc
      by_cases hk : b.1 = k
      · rw [lookupEntries, if_pos hk, show lookupEntries (b :: bs) k = some b.2 from by
          rw [lookupEntries, if_pos hk]]
      · rw [lookupEntries, if_neg hk, mergeRecs_lookup k ha' hb']
        rw [show lookupEntries (b :: bs) k = lookupEntries bs k from by
          rw [lookupEntries, if_neg hk]]
        rw [show lookupEntries (a :: as) k = lookupEntries as k from by
          rw [lookupEntries, if_neg (hc ▸ hk)]]
    · -- b.1 < a.1 : emit b
      by_cases hk : b.1 = k
      · rw [lookupEntries, if_pos hk, show lookupEntries (b :: bs) k = some b.2 from by
          rw [lookupEntries, if_pos hk]]
      · rw [lookupEntries, if_neg hk,
          mergeRecs_lookup k (List.pairwise_cons.mpr ⟨halt, ha'⟩) hb']
        rw [show lookupEntries (b :: bs) k = lookupEntries bs k from by
          rw [lookupEntries, if_neg hk]]
termination_by a b _ => a.length + b.length

/-- The loop of `searchInSparseIndex` from the sstable source: scan the
sparse index sequentially with running lower bound `frm` (Go `from`,
initially `-1`).  `decodeInt` of a missing or short value would panic in
Go (`binary.BigEndian.Uint64` needs 8 bytes).  All read loops below are
bounded by a fuel counter to remain structural recursions; a successful
`decode` consumes at least 16 bytes, so the `length + 1` fuel the
wrappers pass can never run out and the fuel-0 branch is unreachable. -/
def sparseLoop (searchKey : Bytes) : Nat → Bytes → Int → Except GoErr (Int × Int × Bool)
  | 0, _, _ => .error .corrupted
  | fuel + 1, input, frm =>
    match decode input with
    | .eofClean => .ok (frm, 0, frm ≠ -1)
    | .corrupted => .error .corrupted
    | .goPanic => .error .slicePanic
    | .ok k v rest =>
      match v with
      | none => .error .slicePanic
      | some vb =>
        if vb.length < 8 then .error .slicePanic
        else
          let offset : Int := decodeInt vb
          match bytesCompare k searchKey with
          | .eq => .ok (offset, offset, true)
          | .lt => sparseLoop searchKey fuel rest offset
          | .gt => if frm = -1 then .ok (0, 0, false) else .ok (frm, offset, true)

/-- `searchInSparseIndex` from the sstable source. -/
def searchInSparseIndex (bytes searchKey : Bytes) :
    Except GoErr (Int × Int × Bool) :=
  sparseLoop searchKey (bytes.length + 1) bytes (-1)

/-- The loop of `searchInIndex`: read dense-index entries from absolute
byte position `pos`; a key match returns its data offset; when
`to > from`, reaching position `to` stops with a miss. -/
def indexLoop (searchKey : Bytes) (frm toPos : Int) :
    Nat → Bytes → Nat → Except GoErr (Nat × Bool)
  | 0, _, _ => .error .corrupted
  | fuel + 1, remaining, pos =>
    match decode remaining with
    | .eofClean => .ok (0, false)
    | .corrupted => .error .corrupted
    | .goPanic => .error .slicePanic
    | .ok k v rest =>
      match v with
      | none => .error .slicePanic
      | some vb =>
        if vb.length < 8 then .error .slicePanic
        else
          let offset := decodeInt vb
          if k = searchKey then .ok (offset, true)
          else
            let current : Int := (pos + (remaining.length - rest.length) : Nat)
            if toPos > frm ∧ current ≥ toPos then .ok (0, false)
            else indexLoop searchKey frm toPos fuel rest
              (pos + (remaining.length - rest.length))

/-- `searchInIndex` from the sstable source: seek to `frm` (a negative
offset makes `Seek` fail) and scan. -/
def searchInIndex (bytes : Bytes) (frm toPos : Int) (searchKey : Bytes) :
    Except GoErr (Nat × Bool) :=
  if frm < 0 then .error .seekNegative
  else indexLoop searchKey frm toPos ((bytes.drop frm.toNat).length + 1)
    (bytes.drop frm.toNat) frm.toNat

/-- The loop of `searchInDataFile`: scan records until the key matches
(the value may be a tombstone) or EOF. -/
def dataLoop (searchKey : Bytes) : Nat → Bytes → Except GoErr (Option Bytes × Bool)
  | 0, _ => .error .corrupted
  | fuel + 1, remaining =>
    match decode remaining with
    | .eofClean => .ok (none, false)
    | .corrupted => .error .corrupted
    | .goPanic => .error .slicePanic
    | .ok k v rest =>
      if k = searchKey then .ok (v, true) else dataLoop searchKey fuel rest

/-- `searchInDataFile` from the sstable source. -/
def searchInDataFile (bytes : Bytes) (offset : Nat) (searchKey : Bytes) :
    Except GoErr (Option Bytes × Bool) :=
  dataLoop searchKey ((bytes.drop offset).length + 1) (bytes.drop offset)

/-- The three immutable files of one sorted run. -/
structure RunFiles where
  data : Bytes
  index : Bytes
  sparse : Bytes
  deriving Repr, DecidableEq

/-- The directory contents relevant to runs: an association of run
indices to their three files (created and removed as a unit, exactly how
every code path treats them). -/
abbrev Disk := List (Int × RunFiles)

def diskGet : Disk → Int → Option RunFiles
  | [], _ => none
  | (i, f) :: t, j => if j = i then some f else diskGet t j

def diskErase (d : Disk) (i : Int) : Disk :=
  d.filter fun p => p.1 ≠ i

def diskSet (d : Disk) (i : Int) (f : RunFiles) : Disk :=
  (i, f) :: diskErase d i

/-- `searchInSsTable` (singular) from the sstable source: search one run.
Missing run files make the `os.OpenFile` calls fail.  The sparse search
gates the rest through its `ok`; the dense search's `ok` is ignored by
the source, so a dense miss scans the data file from offset 0. -/
def searchInSsTable (disk : Disk) (index : Int) (key : Bytes) :
    Except GoErr (Option Bytes × Bool) :=
  match diskGet disk index with
  | none => .error .fileNotFound
  | some files =>
    match searchInSparseIndex files.sparse key with
    | .error e => .error e
    | .ok (frm, toPos, ok) =>
      if !ok then .ok (none, false)
      else
        match searchInIndex files.index frm toPos key with
        | .error e => .error e
        | .ok (offset, _) => searchInDataFile files.data offset key

/-- The loop of `searchInSsTables` (plural) from the sstable source,
counting `index + 1` down: probes run `n` and continues below on a
miss.  Note the loop runs down to index 0, regardless of how many runs
exist. -/
def searchInSsTablesGo (disk : Disk) (key : Bytes) :
    Nat → Except GoErr (Option Bytes × Bool)
  | 0 => .ok (none, false)
  | n + 1 =>
    match searchInSsTable disk (n : Int) key with
    | .error e => .error e
    | .ok (v, true) => .ok (v, true)
    | .ok (_, false) => searchInSsTablesGo disk key n

/-- `searchInSsTables` (plural): descend from `maxIndex` to 0. -/
def searchInSsTables (disk : Disk) (maxIndex : Int) (key : Bytes) :
    Except GoErr (Option Bytes × Bool) :=
  searchInSsTablesGo disk key (maxIndex + 1).toNat

/-- `mergeSsTables` from `merge.go`: open both data files (a missing
file fails the open; an empty one fails the iterator constructor, whose
first `decode` returns `io.EOF`), two-pointer merge into a fresh writer
under the `merge` prefix, then delete both inputs and rename the output
to index `b`.  Net directory effect: run `a` disappears, run `b` is the
merge result. -/
def mergeSsTables (disk : Disk) (a b : Int) (skd : Nat) : Except GoErr Disk :=
  match diskGet disk a with
  | none => .error .fileNotFound
  | some fa =>
    match decodeAllRecords fa.data with
    | .error e => .error e
    | .ok recsA =>
      if recsA = [] then .error .emptyDataFile
      else
        match diskGet disk b with
        | none => .error .fileNotFound
        | some fb =>
          match decodeAllRecords fb.data with
          | .error e => .error e
          | .ok recsB =>
            if recsB = [] then .error .emptyDataFile
            else
              match writeAll (mergeRecs recsA recsB) (newSsTableWriter skd) with
              | .error e => .error e
              | .ok w =>
                .ok (diskSet (diskErase (diskErase disk a) b) b
                  ⟨w.dataFile, w.indexFile, w.sparseIndexFile⟩)

/-- The error taxonomy `LSMTree` exposes: the four validation errors of
`Put`, or a wrapped lower-level failure. -/
inductive LsmErr where
  | keyRequired
  | keyTooLarge
  | valueRequired
  | valueTooLarge
  | goFail (e : GoErr)
  deriving Repr, DecidableEq

/-- The in-memory state of `LSMTree` from `lsmtree.go` together with the
directory contents it owns.  `metaFile` is the 16-byte `meta.db`. -/
structure LSMState where
  wal : Bytes
  mt : MemTable
  maxSsTableIndex : Int
  ssTableNum : Int
  disk : Disk
  metaFile : Option Bytes
  memTableSizeThreshold : Int
  ssTableNumberThreshold : Int
  sparseKeyDistance : Nat
  deriving Repr, DecidableEq

/-- `Open` on an empty directory: WAL empty, memtable empty, no meta
file so `(ssTableNum, maxSsTableIndex) = (0, -1)`; defaults are 64000,
10 and 128, overridden by the option arguments here. -/
def lsmOpen (memThreshold runsMax : Int) (skd : Nat) : LSMState :=
  { wal := []
    mt := newMemTable
    maxSsTableIndex := -1
    ssTableNum := 0
    disk := []
    metaFile := none
    memTableSizeThreshold := memThreshold
    ssTableNumberThreshold := runsMax
    sparseKeyDistance := skd }

/-- `flushMemTable` from `lsmtree.go`: write the memtable as run
`maxSsTableIndex + 1`, overwrite `meta.db`, truncate the WAL, clear the
memtable, bump the counters. -/
def flushMemTable (st : LSMState) : Except GoErr LSMState :=
  let newNum := st.ssTableNum + 1
  let newIdx := st.maxSsTableIndex + 1
  match createSsTable st.mt st.sparseKeyDistance with
  | .error e => .error e
  | .ok w =>
    .ok { st with
      disk := diskSet st.disk newIdx ⟨w.dataFile, w.indexFile, w.sparseIndexFile⟩
      metaFile := some (encodeIntPair newNum newIdx)
      wal := []
      mt := newMemTable
      ssTableNum := newNum
      maxSsTableIndex := newIdx }

/-- The flush/compaction tail of `LSMTree.Put`, taken after the WAL
append and memtable insert have produced `st2`: flush over the size
threshold, then compact the two oldest runs while at or over the
run-count threshold.  An internal failure leaves the state reached so
far, as in Go. -/
def lsmPutBody (st2 : LSMState) : LSMState × Option LsmErr :=
  match (if st2.mt.b > st2.memTableSizeThreshold then flushMemTable st2
         else .ok st2) with
  | .error e => (st2, some (.goFail e))
  | .ok st3 =>
    if st3.ssTableNum ≥ st3.ssTableNumberThreshold then
      let oldest := st3.maxSsTableIndex - st3.ssTableNum + 1
      match mergeSsTables st3.disk oldest (oldest + 1) st3.sparseKeyDistance with
      | .error e => (st3, some (.goFail e))
      | .ok disk1 =>
        ({ st3 with
          disk := disk1
          metaFile := some (encodeIntPair (st3.ssTableNum - 1) st3.maxSsTableIndex)
          ssTableNum := st3.ssTableNum - 1 }, none)
    else (st3, none)

/-- `LSMTree.Put` from `lsmtree.go`: validate, append to the WAL, insert
into the memtable, then run the flush/compaction tail. -/
def lsmPut (st : LSMState) (key value : Bytes) : LSMState × Option LsmErr :=
  if key.length = 0 then (st, some .keyRequired)
  else if key.length > 65535 then (st, some .keyTooLarge)
  else if value.length = 0 then (st, some .valueRequired)
  else if value.length > 65535 then (st, some .valueTooLarge)
  else
    lsmPutBody { st with
      wal := st.wal ++ encode key value
      mt := memPut st.mt key (some value) }

/-- `LSMTree.Delete` from `lsmtree.go`: no validation; append a
tombstone record to the WAL (`encode` with nil value) and insert the
tombstone into the memtable.  No flush or compaction is triggered. -/
def lsmDelete (st : LSMState) (key : Bytes) : LSMState × Option LsmErr :=
  ({ st with
    wal := st.wal ++ encode key []
    mt := memPut st.mt key none }, none)

/-- `LSMTree.Get` from `lsmtree.go`: a memtable hit returns
`(value, value != nil)`; otherwise the code calls the single-run search
`searchInSsTable` at `maxSsTableIndex` (not the run-set descent
`searchInSsTables`) and passes its `(value, exists)` through
unchanged. -/
def lsmGet (st : LSMState) (key : Bytes) : Except GoErr (Option Bytes × Bool) :=
  match memGet st.mt key with
  | some v => .ok (v, v.isSome)
  | none => searchInSsTable st.disk st.maxSsTableIndex key

/-- A `Put` sequence applied in order, stopping at the first error (the
repository test aborts on any error). -/
def lsmPutAll (st : LSMState) : List (Bytes × Bytes) → LSMState × Option LsmErr
  | [] => (st, none)
  | (k, v) :: t =>
    match lsmPut st k v with
    | (st1, none) => lsmPutAll st1 t
    | (st1, some e) => (st1, some e)

instance exceptDecEq {ε α : Type} [DecidableEq ε] [DecidableEq α] :
    DecidableEq (Except ε α) := fun x y =>
  match x, y with
  | .ok a, .ok b =>
    if h : a = b then .isTrue (by rw [h]) else .isFalse (by simp [h])
  | .error e, .error f =>
    if h : e = f then .isTrue (by rw [h]) else .isFalse (by simp [h])
  | .ok _, .error _ => .isFalse (by simp)
  | .error _, .ok _ => .isFalse (by simp)

/-- Any non-validation outcome of `Put` is success or a wrapped internal
failure: the four validation errors can only come from the validation
prologue. -/
theorem lsmPutBody_err (s : LSMState) :
    (lsmPutBody s).2 = none ∨ ∃ g, (lsmPutBody s).2 = some (.goFail g) := by
  rw [lsmPutBody]
  rcases hf : (if s.mt.b > s.memTableSizeThreshold then flushMemTable s
      else .ok s) with e | st3
  · exact Or.inr ⟨e, rfl⟩
  · simp only []
    by_cases hn : st3.ssTableNum ≥ st3.ssTableNumberThreshold
    · rw [if_pos hn]
      rcases hm : mergeSsTables st3.disk (st3.maxSsTableIndex - st3.ssTableNum + 1)
          (st3.maxSsTableIndex - st3.ssTableNum + 1 + 1) st3.sparseKeyDistance with
        e2 | disk1
      · exact Or.inr ⟨e2, rfl⟩
      · exact Or.inl rfl
    · rw [if_neg hn]
      exact Or.inl rfl

theorem lsmPut_internal_err (st : LSMState) (key value : Bytes)
    (h1 : ¬ key.length = 0) (h2 : ¬ key.length > 65535)
    (h3 : ¬ value.length = 0) (h4 : ¬ value.length > 65535) :
    (lsmPut st key value).2 = none ∨
      ∃ g, (lsmPut st key value).2 = some (.goFail g) := by
  rw [lsmPut, if_neg h1, if_neg h2, if_neg h3, if_neg h4]
  exact lsmPutBody_err _

/-- C4: Put validation and atomicity of rejection — `Put` returns
`KeyRequired` iff the key is empty, `KeyTooLarge` iff the key exceeds
65535 bytes, `ValueRequired` iff (the key being valid) the value is
empty, `ValueTooLarge` iff (the key being valid) the value exceeds
65535 bytes, checked in that order; and whenever a validation error is
returned the whole state — WAL, memtable, run files and metadata — is
unchanged. -/
theorem claim_C4 (st : LSMState) (key value : Bytes) :
    ((lsmPut st key value).2 = some .keyRequired ↔ key = []) ∧
    ((lsmPut st key value).2 = some .keyTooLarge ↔ key.length > 65535) ∧
    ((lsmPut st key value).2 = some .valueRequired ↔
      key ≠ [] ∧ key.length ≤ 65535 ∧ value = []) ∧
    ((lsmPut st key value).2 = some .valueTooLarge ↔
      key ≠ [] ∧ key.length ≤ 65535 ∧ value.length > 65535) ∧
    (∀ e : LsmErr, (lsmPut st key value).2 = some e →
      e = .keyRequired ∨ e = .keyTooLarge ∨ e = .valueRequired ∨ e = .valueTooLarge →
      (lsmPut st key value).1 = st) := by
  by_cases h1 : key.length = 0
  · have hk : key = [] := List.length_eq_zero.mp h1
    have hput : lsmPut st key value = (st, some .keyRequired) := by
      rw [lsmPut, if_pos h1]
    rw [hput]
    exact ⟨iff_of_true rfl hk,
      iff_of_false (by simp) (by omega),
      iff_of_false (by simp) (fun ⟨hc, _, _⟩ => hc hk),
      iff_of_false (by simp) (fun ⟨hc, _, _⟩ => hc hk),
      fun e he _ => rfl⟩
  · have hk : key ≠ [] := fun hc => h1 (by rw [hc]; rfl)
    by_cases h2 : key.length > 65535
    · have hput : lsmPut st key value = (st, some .keyTooLarge) := by
        rw [lsmPut, if_neg h1, if_pos h2]
      rw [hput]
      exact ⟨iff_of_false (by simp) (fun hc => h1 (by rw [hc]; rfl)),
        iff_of_true rfl h2,
        iff_of_false (by simp) (fun ⟨_, hc, _⟩ => by omega),
        iff_of_false (by simp) (fun ⟨_, hc, _⟩ => by omega),
        fun e he _ => rfl⟩
    · by_cases h3 : value.length = 0
      · have hv : value = [] := List.length_eq_zero.mp h3
        have hput : lsmPut st key value = (st, some .valueRequired) := by
          rw [lsmPut, if_neg h1, if_neg h2, if_pos h3]
        rw [hput]
        exact ⟨iff_of_false (by simp) (fun hc => h1 (by rw [hc]; rfl)),
          iff_of_false (by simp) h2,
          iff_of_true rfl ⟨hk, by omega, hv⟩,
          iff_of_false (by simp) (fun ⟨_, _, hc⟩ => by omega),
          fun e he _ => rfl⟩
      · by_cases h4 : value.length > 65535
        · have hput : lsmPut st key value = (st, some .valueTooLarge) := by
            rw [lsmPut, if_neg h1, if_neg h2, if_neg h3, if_pos h4]
          rw [hput]
          exact ⟨iff_of_false (by simp) (fun hc => h1 (by rw [hc]; rfl)),
            iff_of_false (by simp) h2,
            iff_of_false (by simp) (fun ⟨_, _, hc⟩ => h3 (by rw [hc]; rfl)),
            iff_of_true rfl ⟨hk, by omega, h4⟩,
            fun e he _ => rfl⟩
        · rcases lsmPut_internal_err st key value h1 h2 h3 h4 with h | ⟨g, h⟩ <;>
            refine ⟨iff_of_false (by rw [h]; simp) (fun hc => h1 (by rw [hc]; rfl)),
              iff_of_false (by rw [h]; simp) h2,
              iff_of_false (by rw [h]; simp) (fun ⟨_, _, hc⟩ => h3 (by rw [hc]; rfl)),
              iff_of_false (by rw [h]; simp) (fun ⟨_, _, hc⟩ => by omega),
              fun e he hval => ?_⟩
          · rw [h] at he
            cases he
          · rw [h] at he
            injection he with he
            subst he
            rcases hval with h' | h' | h' | h' <;> cases h'

/-- C4 witness: the empty key at a concrete state. -/
theorem claim_C4_witness :
    (lsmPut (lsmOpen 64000 10 128) [] [49]).2 = some .keyRequired ∧
    (lsmPut (lsmOpen 64000 10 128) [] [49]).1 = lsmOpen 64000 10 128 :=
  ⟨(claim_C4 (lsmOpen 64000 10 128) [] [49]).1.mpr rfl,
   (claim_C4 (lsmOpen 64000 10 128) [] [49]).2.2.2.2 .keyRequired
     ((claim_C4 (lsmOpen 64000 10 128) [] [49]).1.mpr rfl) (Or.inl rfl)⟩

/-- C5: Record codec round trip — for keys of length 1..65535 and values
of length 0..65535, decoding the encoded frame returns exactly the key,
the value (zero length decoding to the tombstone `none`), and exactly
the bytes following the frame (so frames round-trip in sequence and the
frame consumes exactly `8 + 8 + len key + len value` bytes); end of
stream at the first byte of the length prefix is clean EOF. -/
theorem claim_C5 (key value rest : Bytes) (hk1 : 1 ≤ key.length)
    (hk : key.length ≤ 65535) (hv : value.length ≤ 65535) :
    decode (encode key value ++ rest) =
      .ok key (if value.isEmpty then none else some value) rest ∧
    (encode key value).length = 8 + 8 + key.length + value.length ∧
    decode [] = .eofClean := by
  refine ⟨decode_encode key value rest hk hv, ?_, rfl⟩
  simp [encode, encodeInt]
  omega

/-- C5 witness: a tombstone frame followed by a live frame. -/
theorem claim_C5_witness :
    decode (encode [1] [] ++ encode [2] [7, 8]) = .ok [1] none (encode [2] [7, 8]) ∧
    (encode [1] []).length = 8 + 8 + 1 + 0 ∧
    decode [] = .eofClean := by
  have h := claim_C5 [1] [] (encode [2] [7, 8]) (by decide) (by decide) (by decide)
  exact ⟨h.1, h.2.1, h.2.2⟩

/-- C7 counterexample: with `sparse_key_distance = 0` the writer's
`write` does not complete normally — Go's `keyNum % 0` panics with a
division by zero, modelled as the `divByZero` error. -/
theorem claim_C7_counterexample :
    ssTableWrite (newSsTableWriter 0) [97] (some [49]) = .error .divByZero := by
  decide

/-- C7 amended: when `sparse_key_distance` is 0, `write` fails with the
division-by-zero panic on every record, and flushing any non-empty
memtable fails the same way; N = 0 is not admissible. -/
theorem claim_C7_amended (w : WriterState) (key : Bytes) (value : Option Bytes)
    (mt : MemTable) (hw : w.sparseKeyDistance = 0) (hmt : mt.data ≠ []) :
    ssTableWrite w key value = .error .divByZero ∧
    createSsTable mt 0 = .error .divByZero := by
  constructor
  · rw [ssTableWrite, if_pos hw]
  · rcases hd : mt.data with - | ⟨e, t⟩
    · exact absurd hd hmt
    · rw [createSsTable, hd, writeAll, List.foldlM_cons]
      rw [show ssTableWrite (newSsTableWriter 0) e.1 e.2 = .error .divByZero from by
        rw [ssTableWrite,
          if_pos (show (newSsTableWriter 0).sparseKeyDistance = 0 from rfl)]]
      rfl

theorem claim_C7_amended_witness :
    (newSsTableWriter 0).sparseKeyDistance = 0 ∧
    (⟨[([5], some [6])], 11⟩ : MemTable).data ≠ [] ∧
    ssTableWrite (newSsTableWriter 0) [5] (some [6]) = .error .divByZero ∧
    createSsTable ⟨[([5], some [6])], 11⟩ 0 = .error .divByZero := by
  have h := claim_C7_amended (newSsTableWriter 0) [5] (some [6])
    ⟨[([5], some [6])], 11⟩ rfl (by decide)
  exact ⟨rfl, by decide, h.1, h.2⟩

/-- C10: implicit — `Delete` performs no input validation: for every
key, including the empty key and oversized keys, it returns no error
(in particular never `KeyRequired` or `KeyTooLarge`), appends the
tombstone record for the key to the WAL and inserts the tombstone into
the memtable, leaving the run files untouched. -/
theorem claim_C10 (st : LSMState) (key : Bytes) :
    (lsmDelete st key).2 = none ∧
    (lsmDelete st key).2 ≠ some .keyRequired ∧
    (lsmDelete st key).2 ≠ some .keyTooLarge ∧
    (lsmDelete st key).1.wal = st.wal ++ encode key [] ∧
    (lsmDelete st key).1.mt = memPut st.mt key none ∧
    (lsmDelete st key).1.disk = st.disk :=
  ⟨rfl, by simp [lsmDelete], by simp [lsmDelete], rfl, rfl, rfl⟩

def memPutAll (ops : List (Bytes × Option Bytes)) : MemTable :=
  ops.foldl (fun mt op => memPut mt op.1 op.2) newMemTable

theorem memPutAll_wf_aux (ops : List (Bytes × Option Bytes)) (mt : MemTable)
    (h : WellFormedMT mt) :
    WellFormedMT (ops.foldl (fun mt op => memPut mt op.1 op.2) mt) := by
  induction ops generalizing mt with
  | nil => exact h
  | cons op t ih => exact ih _ (memPut_wf h)

/-- C9: Memtable size accounting — after any sequence of puts (values or
tombstones) starting from an empty memtable, `b` equals the sum over the
resident (distinct, ascending) keys of `len key + len value` with
tombstones counting zero; and overwriting a key bound to `old` with `v`
changes `b` by exactly `len v - len old`. -/
theorem claim_C9 :
    (∀ ops : List (Bytes × Option Bytes),
      SortedEntries (memPutAll ops).data ∧
      (memPutAll ops).b = entriesBytes (memPutAll ops).data) ∧
    (∀ (mt : MemTable) (k : Bytes) (v old : Option Bytes),
      SortedEntries mt.data → memGet mt k = some old →
      (memPut mt k v).b = mt.b + optLen v - optLen old) := by
  constructor
  · intro ops
    have h := memPutAll_wf_aux ops newMemTable ⟨List.Pairwise.nil, rfl⟩
    exact ⟨h.1, h.2⟩
  · intro mt k v old hs hget
    exact memPut_overwrite hs hget

theorem claim_C9_witness :
    (memPutAll [([1], some [7, 8]), ([2], none), ([1], some [9])]).b =
      entriesBytes (memPutAll [([1], some [7, 8]), ([2], none), ([1], some [9])]).data ∧
    (memPut ⟨[([1], some [7, 8])], 3⟩ [1] (some [9])).b =
      (3 : Int) + optLen (some [9]) - optLen (some [7, 8]) :=
  ⟨(claim_C9.1 [([1], some [7, 8]), ([2], none), ([1], some [9])]).2,
   claim_C9.2 ⟨[([1], some [7, 8])], 3⟩ [1] (some [9]) (some [7, 8])
     (by decide) (by decide)⟩

theorem exists_mem_iff_lookup (l : List Entry) (k : Bytes) :
    (∃ e ∈ l, e.1 = k) ↔ lookupEntries l k ≠ none := by
  induction l with
  | nil => simp [lookupEntries]
  | cons e t ih =>
    rw [lookupEntries]
    by_cases hk : e.1 = k
    · simp [hk]
    · rw [if_neg hk]
      simp only [List.mem_cons]
      constructor
      · rintro ⟨x, hx | hx, hxe⟩
        · rw [hx] at hxe
          exact absurd hxe hk
        · exact ih.mp ⟨x, hx, hxe⟩
      · intro h
        obtain ⟨x, hx, hxe⟩ := ih.mpr h
        exact ⟨x, Or.inr hx, hxe⟩

/-- C6: Merge is a newer-wins union — merging two ascending record
sequences (run `a` older, run `b = a+1` newer) yields an ascending
sequence whose keys are exactly the union of the input keys, every key
in `b` mapping to its `b` value and every key only in `a` to its `a`
value; tombstone records (`none` values) are carried through like any
other value. -/
theorem claim_C6 (A B : List Entry) (hA : SortedEntries A) (hB : SortedEntries B) :
    SortedEntries (mergeRecs A B) ∧
    (∀ k, lookupEntries (mergeRecs A B) k =
      match lookupEntries B k with
      | some v => some v
      | none => lookupEntries A k) ∧
    (∀ k, (∃ e ∈ mergeRecs A B, e.1 = k) ↔
      (∃ e ∈ A, e.1 = k) ∨ (∃ e ∈ B, e.1 = k)) := by
  refine ⟨mergeRecs_sorted hA hB, fun k => mergeRecs_lookup k hA hB, fun k => ?_⟩
  rw [exists_mem_iff_lookup, exists_mem_iff_lookup, exists_mem_iff_lookup,
    mergeRecs_lookup k hA hB]
  rcases lookupEntries B k <;> simp

theorem claim_C6_witness :
    SortedEntries (mergeRecs [([1], some [10]), ([3], none)]
      [([1], some [9]), ([2], some [8])]) ∧
    lookupEntries (mergeRecs [([1], some [10]), ([3], none)]
      [([1], some [9]), ([2], some [8])]) [1] = some (some [9]) ∧
    lookupEntries (mergeRecs [([1], some [10]), ([3], none)]
      [([1], some [9]), ([2], some [8])]) [3] = some none := by
  have h := claim_C6 [([1], some [10]), ([3], none)]
    [([1], some [9]), ([2], some [8])] (by decide) (by decide)
  refine ⟨h.1, ?_, ?_⟩
  · have h1 := h.2.1 [1]
    simpa [lookupEntries] using h1
  · have h3 := h.2.1 [3]
    simpa [lookupEntries] using h3

/-- C8: Run-file structure — writing `n` records with ascending keys and
sparse distance `N ≥ 1` yields a data file holding exactly those records
in order (hence ascending), a dense index with exactly `n` entries where
entry `i` pairs key `i` with the byte offset of record `i` in the data
file, and a sparse index with exactly `⌈n / N⌉` entries, namely those
records whose ordinal is divisible by `N`, the first record's key always
included. -/
theorem claim_C8 (recs : List Entry) (N : Nat) (hN : 0 < N)
    (hs : SortedEntries recs) (hv : ∀ e ∈ recs, ValidEntry e) :
    ∃ w, writeAll recs (newSsTableWriter N) = .ok w ∧
      w.dataFile = runData recs ∧
      decodeAllRecords w.dataFile = .ok recs ∧
      w.indexFile = denseIndexBytes recs 0 ∧
      (denseEntries recs 0).length = recs.length ∧
      (∀ i, (denseEntries recs 0)[i]? =
        (recs[i]?).map fun e => (e.1, dataOffset recs i)) ∧
      w.sparseIndexFile = sparseIndexBytes recs 0 0 N ∧
      (sparseEntries recs 0 0 N).length = (recs.length + N - 1) / N ∧
      ((sparseEntries recs 0 0 N).map Prod.fst =
        ((recs.enumFrom 0).filter fun p => p.1 % N = 0).map fun p => p.2.1) ∧
      (∀ e t, recs = e :: t → (sparseEntries recs 0 0 N).head? = some (e.1, 0)) := by
  have hw := writeAll_ok recs (newSsTableWriter N) hN
  refine ⟨_, hw, by simp [newSsTableWriter], ?_, by simp [newSsTableWriter], ?_, ?_,
    by simp [newSsTableWriter], ?_, ?_, ?_⟩
  · simp only [newSsTableWriter, List.nil_append]
    exact decodeAllRecords_runData recs hv
  · exact denseEntries_length recs 0
  · intro i
    have h := denseEntries_getElem recs 0 i
    simpa using h
  · exact sparseEntries_length_zero recs 0 N hN
  · exact sparseEntries_keys recs 0 0 N
  · intro e t hrecs
    subst hrecs
    exact sparseEntries_first e t 0 N

theorem claim_C8_witness :
    (sparseEntries [([1], some [7]), ([2], none), ([3], some [9])] 0 0 2).length = 2 ∧
    ∃ w, writeAll [([1], some [7]), ([2], none), ([3], some [9])]
        (newSsTableWriter 2) = .ok w ∧
      decodeAllRecords w.dataFile = .ok [([1], some [7]), ([2], none), ([3], some [9])] := by
  obtain ⟨w, h1, h2, h3, h4⟩ := claim_C8 [([1], some [7]), ([2], none), ([3], some [9])] 2
    (by decide) (by decide) (by decide)
  exact ⟨by decide, w, h1, h3⟩

/-- The repository test scenario in miniature: four Puts with a 3-byte
memtable threshold produce two runs; key `[97]` lives in run 0. -/
def trailC1 : LSMState × Option LsmErr :=
  lsmPutAll (lsmOpen 3 10 1)
    [([97], [49]), ([98], [50]), ([99], [51]), ([100], [52])]

/-- C1: Read-your-writes over the whole store — the claim FAILS on the
code.  `LSMTree.Get` calls the single-run search `searchInSsTable` at
`maxSsTableIndex` instead of the run-set descent `searchInSsTables`, so
a key flushed into any older run is reported absent.  After four valid
Puts with distinct keys (two flushes), key `[97]` sits in run 0, is
found there by the single-run search, and is found by the descent
helper, yet `Get` returns `found = false`.  This also contradicts the
repository's own `TestApi`, whose phase 3 requires `Get` to find
odd-indexed keys that live in older runs. -/
theorem claim_C1 :
    trailC1.2 = none ∧
    trailC1.1.ssTableNum = 2 ∧
    trailC1.1.maxSsTableIndex = 1 ∧
    memGet trailC1.1.mt [97] = none ∧
    searchInSsTable trailC1.1.disk 0 [97] = .ok (some [49], true) ∧
    searchInSsTables trailC1.1.disk trailC1.1.maxSsTableIndex [97] =
      .ok (some [49], true) ∧
    lsmGet trailC1.1 [97] = .ok (none, false) := by
  decide

def trailC2a : LSMState :=
  (lsmDelete (lsmPutAll (lsmOpen 3 10 1) [([97], [49]), ([98], [50])]).1 [97]).1

def trailC2 : LSMState := (lsmPut trailC2a [99] [51, 51, 51]).1

/-- C2: Deletion observable as absence everywhere — the claim FAILS on
the code for flushed tombstones.  While the tombstone for `[97]` is
memtable-resident, `Get` correctly reports absence; once a later `Put`
flushes the tombstone into the newest run, `Get` returns that run's
search result unchanged — `searchInDataFile` reports a tombstone as
`(nil, true)` and `Get`'s disk path lacks the `value != nil` check the
memtable path has — so `Get` returns `found = true` (with nil value)
for the deleted key. -/
theorem claim_C2 :
    lsmGet trailC2a [97] = .ok (none, false) ∧
    (lsmPut trailC2a [99] [51, 51, 51]).2 = none ∧
    memGet trailC2.mt [97] = none ∧
    trailC2.maxSsTableIndex = 1 ∧
    searchInSsTable trailC2.disk 1 [97] = .ok (none, true) ∧
    lsmGet trailC2 [97] = .ok (none, true) := by
  decide

/-- Byte position of dense-index entry `i` inside the dense index
file. -/
def densePos (recs : List Entry) (i : Nat) : Nat :=
  ((recs.take i).map indexFrameLen).sum

/-- A file of `(key, offset)` frames — the shape of both index files. -/
def keyOffsetFile (ps : List (Bytes × Nat)) : Bytes :=
  (ps.map fun p => encodeKeyOffset p.1 p.2).flatten

/-- The three files of a run as the writer produces them from a record
sequence. -/
def runFilesOf (recs : List Entry) (N : Nat) : RunFiles :=
  ⟨runData recs, denseIndexBytes recs 0, sparseIndexBytes recs 0 0 N⟩

theorem denseIndexBytes_eq_keyOffsetFile (recs : List Entry) (pos : Nat) :
    denseIndexBytes recs pos = keyOffsetFile (denseEntries recs pos) := rfl

theorem sparseIndexBytes_eq_keyOffsetFile (recs : List Entry) (num ipos n : Nat) :
    sparseIndexBytes recs num ipos n = keyOffsetFile (sparseEntries recs num ipos n) := rfl

/-- Pure mirror of the `searchInSparseIndex` loop over decoded
`(key, offset)` entries. -/
def sparseScan (key : Bytes) : List (Bytes × Nat) → Int → Int × Int × Bool
  | [], frm => (frm, 0, frm ≠ -1)
  | (k, off) :: t, frm =>
    match bytesCompare k key with
    | .eq => ((off : Int), (off : Int), true)
    | .lt => sparseScan key t (off : Int)
    | .gt => if frm = -1 then (0, 0, false) else (frm, (off : Int), true)

theorem keyOffsetFile_nil : keyOffsetFile [] = [] := rfl

theorem keyOffsetFile_cons (p : Bytes × Nat) (t : List (Bytes × Nat)) :
    keyOffsetFile (p :: t) = encodeKeyOffset p.1 p.2 ++ keyOffsetFile t := by
  simp [keyOffsetFile]

theorem keyOffsetFile_append (a b : List (Bytes × Nat)) :
    keyOffsetFile (a ++ b) = keyOffsetFile a ++ keyOffsetFile b := by
  simp [keyOffsetFile]

theorem keyOffsetFile_length (ps : List (Bytes × Nat)) :
    (keyOffsetFile ps).length = (ps.map fun p => 24 + p.1.length).sum := by
  induction ps with
  | nil => rfl
  | cons p t ih =>
    rw [keyOffsetFile_cons, List.length_append, ih, List.map_cons, List.sum_cons,
      encodeKeyOffset_length]

/-- Decoding one `(key, offset)` frame. -/
theorem decode_keyOffset (k : Bytes) (off : Nat) (rest : Bytes)
    (hk : k.length ≤ 65535) :
    decode (encodeKeyOffset k off ++ rest) = .ok k (some (encodeInt off)) rest := by
  have h := decode_encode k (encodeInt off) rest hk (by rw [encodeInt_length]; omega)
  rw [encodeKeyOffset, h]
  simp [encodeInt]

theorem indexFrameLen_pos (e : Entry) : 24 ≤ indexFrameLen e := by
  rw [indexFrameLen, encodeKeyOffset_length]
  omega

theorem densePos_zero (recs : List Entry) : densePos recs 0 = 0 := rfl

theorem densePos_cons_succ (e : Entry) (t : List Entry) (i : Nat) :
    densePos (e :: t) (i + 1) = indexFrameLen e + densePos t i := by
  simp [densePos, List.take_succ_cons]

theorem dataOffset_zero (recs : List Entry) : dataOffset recs 0 = 0 := rfl

theorem dataOffset_cons_succ (e : Entry) (t : List Entry) (i : Nat) :
    dataOffset (e :: t) (i + 1) = (frameOf e).length + dataOffset t i := by
  simp [dataOffset, List.take_succ_cons, runData]

theorem indexFrameLen_eq (e : Entry) : indexFrameLen e = 24 + e.1.length := by
  rw [indexFrameLen, encodeKeyOffset_length]

theorem denseIndexBytes_length (recs : List Entry) (pos : Nat) :
    (denseIndexBytes recs pos).length = (recs.map indexFrameLen).sum := by
  induction recs generalizing pos with
  | nil => rfl
  | cons e t ih =>
    rw [denseIndexBytes_cons, List.length_append, ih, List.map_cons, List.sum_cons,
      encodeKeyOffset_length, indexFrameLen_eq]

theorem densePos_eq_sum (recs : List Entry) (i : Nat) :
    densePos recs i = ((recs.take i).map indexFrameLen).sum := rfl

/-- `densePos` is bounded by the dense file length. -/
theorem densePos_le (recs : List Entry) (i : Nat) :
    densePos recs i ≤ (denseIndexBytes recs 0).length := by
  rw [denseIndexBytes_length, densePos_eq_sum]
  conv_rhs => rw [← List.take_append_drop i recs]
  rw [List.map_append, List.sum_append]
  exact Nat.le_add_right _ _

theorem runData_append (a b : List Entry) :
    runData (a ++ b) = runData a ++ runData b := by
  simp [runData]

theorem dataOffset_eq (recs : List Entry) (i : Nat) :
    dataOffset recs i = (runData (recs.take i)).length := rfl

/-- `dataOffset` is bounded by the data file length. -/
theorem dataOffset_le (recs : List Entry) (i : Nat) :
    dataOffset recs i ≤ (runData recs).length := by
  rw [dataOffset_eq]
  conv_rhs => rw [← List.take_append_drop i recs]
  rw [runData_append, List.length_append]
  exact Nat.le_add_right _ _

/-- Dense positions are strictly increasing in the ordinal. -/
theorem densePos_strict (recs : List Entry) {i j : Nat} (hij : i < j)
    (hjlen : j ≤ recs.length) : densePos recs i < densePos recs j := by
  have hsplit : recs.take j = recs.take i ++ (recs.drop i).take (j - i) := by
    rw [show j = i + (j - i) by omega, List.take_add, Nat.add_sub_cancel_left]
  rw [densePos_eq_sum, densePos_eq_sum, hsplit, List.map_append, List.sum_append]
  rcases h : (recs.drop i).take (j - i) with - | ⟨x, xs⟩
  · have hlen : ((recs.drop i).take (j - i)).length = min (j - i) (recs.length - i) := by
      simp
    rw [h] at hlen
    simp at hlen
    omega
  · rw [List.map_cons, List.sum_cons]
    have := indexFrameLen_pos x
    omega

/-- In a sorted record list, keys at increasing ordinals compare `lt`. -/
theorem sorted_getElem?_lt {recs : List Entry} (hs : SortedEntries recs)
    {i j : Nat} {e f : Entry} (hij : i < j)
    (hi : recs[i]? = some e) (hj : recs[j]? = some f) :
    bytesCompare e.1 f.1 = .lt := by
  rw [List.getElem?_eq_some] at hi hj
  obtain ⟨hi1, hi2⟩ := hi
  obtain ⟨hj1, hj2⟩ := hj
  have h := (List.pairwise_iff_getElem.mp hs) i j hi1 hj1 hij
  rw [hi2, hj2] at h
  exact h

/-- Keys determine ordinals in a sorted record list. -/
theorem sorted_key_inj {recs : List Entry} (hs : SortedEntries recs)
    {i j : Nat} {e f : Entry} (hi : recs[i]? = some e) (hj : recs[j]? = some f)
    (hef : e.1 = f.1) : i = j := by
  rcases Nat.lt_trichotomy i j with h | h | h
  · have := sorted_getElem?_lt hs h hi hj
    rw [hef, bytesCompare_self] at this
    cases this
  · exact h
  · have := sorted_getElem?_lt hs h hj hi
    rw [hef, bytesCompare_self] at this
    cases this

/-- A strict key comparison reflects the ordinal order. -/
theorem sorted_lt_index {recs : List Entry} (hs : SortedEntries recs)
    {i j : Nat} {e f : Entry} (hi : recs[i]? = some e) (hj : recs[j]? = some f)
    (hef : bytesCompare e.1 f.1 = .lt) : i < j := by
  rcases Nat.lt_trichotomy i j with h | h | h
  · exact h
  · subst h
    rw [hi] at hj
    injection hj with hj
    subst hj
    rw [bytesCompare_self] at hef
    cases hef
  · have h2 := sorted_getElem?_lt hs h hj hi
    have := bytesCompare_lt_trans hef h2
    rw [bytesCompare_self] at this
    cases this

/-- Every dense-index entry is a record's key with its data offset. -/
theorem denseEntries_mem {recs : List Entry} {pos : Nat} {p : Bytes × Nat}
    (hp : p ∈ denseEntries recs pos) :
    ∃ i e, recs[i]? = some e ∧ p = (e.1, pos + dataOffset recs i) := by
  induction recs generalizing pos with
  | nil => simp [denseEntries] at hp
  | cons e t ih =>
    rw [denseEntries, List.mem_cons] at hp
    rcases hp with rfl | hp
    · exact ⟨0, e, by simp, by simp [dataOffset_zero]⟩
    · obtain ⟨i, f, hget, hval⟩ := ih hp
      refine ⟨i + 1, f, by simpa using hget, ?_⟩
      rw [hval, dataOffset_cons_succ]
      simp [Nat.add_assoc]

/-- Every sparse-index entry is a record's key with its dense-index
position (shifted by the running `ipos`). -/
theorem sparseEntries_mem {recs : List Entry} {num ipos n : Nat} {p : Bytes × Nat}
    (hp : p ∈ sparseEntries recs num ipos n) :
    ∃ i e, recs[i]? = some e ∧ p = (e.1, ipos + densePos recs i) := by
  induction recs generalizing num ipos with
  | nil => simp [sparseEntries] at hp
  | cons e t ih =>
    rw [sparseEntries, List.mem_append] at hp
    rcases hp with hp | hp
    · by_cases hn : num % n = 0
      · rw [if_pos hn] at hp
        simp at hp
        exact ⟨0, e, by simp, by simp [hp, densePos_zero]⟩
      · rw [if_neg hn] at hp
        simp at hp
    · obtain ⟨i, f, hget, hval⟩ := ih hp
      refine ⟨i + 1, f, by simpa using hget, ?_⟩
      rw [hval, densePos_cons_succ]
      simp [Nat.add_assoc]

/-- Dropping a dense position from the dense file exposes the dense
index of the record suffix. -/
theorem denseIndexBytes_drop (recs : List Entry) (pos i : Nat) :
    (denseIndexBytes recs pos).drop (densePos recs i) =
      denseIndexBytes (recs.drop i) (pos + dataOffset recs i) := by
  induction recs generalizing pos i with
  | nil => simp [denseIndexBytes_nil, densePos, dataOffset]
  | cons e t ih =>
    cases i with
    | zero => simp [densePos_zero, dataOffset_zero]
    | succ j =>
      rw [densePos_cons_succ, denseIndexBytes_cons, ← List.drop_drop]
      rw [List.drop_left' (by rw [encodeKeyOffset_length, indexFrameLen_eq])]
      rw [ih, dataOffset_cons_succ, List.drop_succ_cons]
      rw [Nat.add_assoc]

/-- Dropping a data offset from the data file exposes the record
suffix. -/
theorem runData_drop (recs : List Entry) (i : Nat) :
    (runData recs).drop (dataOffset recs i) = runData (recs.drop i) := by
  induction recs generalizing i with
  | nil => simp [runData, dataOffset]
  | cons e t ih =>
    cases i with
    | zero => simp [dataOffset_zero]
    | succ j =>
      rw [dataOffset_cons_succ, runData_cons, ← List.drop_drop]
      rw [List.drop_left' rfl, ih, List.drop_succ_cons]

theorem denseEntries_take (recs : List Entry) (pos m : Nat) :
    (denseEntries recs pos).take m = denseEntries (recs.take m) pos := by
  induction recs generalizing pos m with
  | nil => simp [denseEntries]
  | cons e t ih =>
    cases m with
    | zero => simp [denseEntries]
    | succ k => simp [denseEntries, List.take_succ_cons, ih]

theorem dataOffset_add (recs : List Entry) (i m : Nat) :
    dataOffset recs (i + m) = dataOffset recs i + dataOffset (recs.drop i) m := by
  rw [dataOffset_eq, dataOffset_eq, dataOffset_eq, List.take_add, runData_append,
    List.length_append]

theorem densePos_add (recs : List Entry) (i m : Nat) :
    densePos recs (i + m) = densePos recs i + densePos (recs.drop i) m := by
  rw [densePos_eq_sum, densePos_eq_sum, densePos_eq_sum, List.take_add,
    List.map_append, List.sum_append]

/-- The sparse-index loop over a well-formed `(key, offset)` file
computes the pure scan. -/
theorem sparseLoop_spec (key : Bytes) (ps : List (Bytes × Nat)) :
    ∀ (fuel : Nat) (frm : Int),
    (∀ p ∈ ps, p.1.length ≤ 65535) → (∀ p ∈ ps, p.2 < 2 ^ 64) →
    (keyOffsetFile ps).length < fuel →
    sparseLoop key fuel (keyOffsetFile ps) frm = .ok (sparseScan key ps frm) := by
  induction ps with
  | nil =>
    intro fuel frm _ _ hf
    match fuel, hf with
    | f + 1, _ =>
      rw [keyOffsetFile_nil, sparseLoop]
      simp [decode, sparseScan]
  | cons p t ih =>
    intro fuel frm hk hoff hf
    obtain ⟨k, off⟩ := p
    have hk0 : k.length ≤ 65535 := hk (k, off) (List.mem_cons_self _ _)
    have hoff0 : off < 2 ^ 64 := hoff (k, off) (List.mem_cons_self _ _)
    match fuel, hf with
    | f + 1, hf =>
      rw [keyOffsetFile_cons] at hf ⊢
      rw [sparseLoop, decode_keyOffset k off _ hk0]
      simp only [encodeInt_length, decodeInt_encodeInt off hoff0]
      rw [sparseScan]
      rw [if_neg (by omega)]
      cases hc : bytesCompare k key
      · simp only []
        refine ih f (off : Int) (fun q hq => hk q (List.mem_cons_of_mem _ hq))
          (fun q hq => hoff q (List.mem_cons_of_mem _ hq)) ?_
        rw [List.length_append, encodeKeyOffset_length] at hf
        omega
      · rfl
      · simp only []
        split <;> rfl

/-- The dense-index loop over a `(key, offset)` file with no matching
key returns `(0, false)` with no error. -/
theorem indexLoop_miss (key : Bytes) (frm toPos : Int) (ps : List (Bytes × Nat)) :
    ∀ (fuel pos : Nat),
    (∀ p ∈ ps, p.1.length ≤ 65535) → (∀ p ∈ ps, p.2 < 2 ^ 64) →
    (∀ p ∈ ps, p.1 ≠ key) →
    (keyOffsetFile ps).length < fuel →
    indexLoop key frm toPos fuel (keyOffsetFile ps) pos = .ok (0, false) := by
  induction ps with
  | nil =>
    intro fuel pos _ _ _ hf
    match fuel, hf with
    | f + 1, _ =>
      rw [keyOffsetFile_nil, indexLoop]
      simp [decode]
  | cons p t ih =>
    intro fuel pos hk hoff hne hf
    obtain ⟨k, off⟩ := p
    have hk0 : k.length ≤ 65535 := hk (k, off) (List.mem_cons_self _ _)
    have hoff0 : off < 2 ^ 64 := hoff (k, off) (List.mem_cons_self _ _)
    have hne0 : k ≠ key := hne (k, off) (List.mem_cons_self _ _)
    match fuel, hf with
    | f + 1, hf =>
      rw [keyOffsetFile_cons] at hf ⊢
      rw [indexLoop, decode_keyOffset k off _ hk0]
      simp only [encodeInt_length]
      rw [if_neg (by omega), if_neg hne0]
      have hrec := ih f (pos + ((encodeKeyOffset k off ++ keyOffsetFile t).length -
          (keyOffsetFile t).length))
        (fun q hq => hk q (List.mem_cons_of_mem _ hq))
        (fun q hq => hoff q (List.mem_cons_of_mem _ hq))
        (fun q hq => hne q (List.mem_cons_of_mem _ hq))
        (by rw [List.length_append, encodeKeyOffset_length] at hf; omega)
      split
      · rfl
      · exact hrec

/-- The data-file loop from a record boundary computes the first-match
lookup. -/
theorem dataLoop_spec (key : Bytes) (recs : List Entry) :
    ∀ fuel, (∀ e ∈ recs, ValidEntry e) → (runData recs).length < fuel →
    dataLoop key fuel (runData recs) =
      .ok (match lookupEntries recs key with
           | some v => (v, true)
           | none => (none, false)) := by
  induction recs with
  | nil =>
    intro fuel _ hf
    match fuel, hf with
    | f + 1, _ =>
      rw [runData_nil, dataLoop]
      simp [decode, lookupEntries]
  | cons e t ih =>
    intro fuel hv hf
    match fuel, hf with
    | f + 1, hf =>
      rw [runData_cons] at hf ⊢
      rw [dataLoop, decode_frameOf e _ (hv e (List.mem_cons_self _ _))]
      simp only []
      rw [lookupEntries]
      by_cases hkey : e.1 = key
      · rw [if_pos hkey, if_pos hkey]
      · rw [if_neg hkey, if_neg hkey]
        have hrec := ih f (fun x hx => hv x (List.mem_cons_of_mem _ hx))
          (by
            have : 16 ≤ (frameOf e).length := by
              simp [frameOf, encodeRec, encode, encodeInt]
            rw [List.length_append] at hf
            omega)
        rw [hrec]

/-- The dense-index loop reaches a matching entry and returns its data
offset, provided the stop bound (when active) lies beyond the match. -/
theorem indexLoop_hit (key : Bytes) (frm toPos : Int) (off : Nat)
    (ps2 ps1 : List (Bytes × Nat)) :
    ∀ (fuel pos : Nat),
    (∀ p ∈ ps1, p.1.length ≤ 65535) → (∀ p ∈ ps1, p.2 < 2 ^ 64) →
    (∀ p ∈ ps1, p.1 ≠ key) →
    key.length ≤ 65535 → off < 2 ^ 64 →
    (toPos > frm → (pos : Int) + (keyOffsetFile ps1).length < toPos) →
    (keyOffsetFile (ps1 ++ (key, off) :: ps2)).length < fuel →
    indexLoop key frm toPos fuel (keyOffsetFile (ps1 ++ (key, off) :: ps2)) pos =
      .ok (off, true) := by
  induction ps1 with
  | nil =>
    intro fuel pos _ _ _ hkey hoff hstop hf
    match fuel, hf with
    | f + 1, hf =>
      rw [List.nil_append, keyOffsetFile_cons] at hf ⊢
      rw [indexLoop, decode_keyOffset key off _ hkey]
      simp only [encodeInt_length, decodeInt_encodeInt off hoff]
      rw [if_neg (by omega)]
      simp
  | cons p ps1' ih =>
    intro fuel pos hk hoffs hne hkey hoff hstop hf
    obtain ⟨k1, off1⟩ := p
    have hk0 : k1.length ≤ 65535 := hk (k1, off1) (List.mem_cons_self _ _)
    have hoff0 : off1 < 2 ^ 64 := hoffs (k1, off1) (List.mem_cons_self _ _)
    have hne0 : k1 ≠ key := hne (k1, off1) (List.mem_cons_self _ _)
    match fuel, hf with
    | f + 1, hf =>
      rw [List.cons_append, keyOffsetFile_cons] at hf ⊢
      rw [indexLoop, decode_keyOffset k1 off1 _ hk0]
      simp only [encodeInt_length]
      rw [if_neg (by omega), if_neg hne0]
      have hlen1 : (encodeKeyOffset k1 off1).length = 24 + k1.length :=
        encodeKeyOffset_length _ _
    -- the bound cannot fire before the matching entry
      have hconsfile : (keyOffsetFile ((k1, off1) :: ps1')).length =
          24 + k1.length + (keyOffsetFile ps1').length := by
        rw [keyOffsetFile_cons, List.length_append, hlen1]
      rw [if_neg ?hstopneg]
      case hstopneg =>
        rintro ⟨h1, h2⟩
        have h3 := hstop h1
        rw [hconsfile] at h3
        rw [List.length_append, hlen1] at h2
        omega
      refine ih f _ (fun q hq => hk q (List.mem_cons_of_mem _ hq))
        (fun q hq => hoffs q (List.mem_cons_of_mem _ hq))
        (fun q hq => hne q (List.mem_cons_of_mem _ hq))
        hkey hoff ?_ ?_
      · intro h1
        have h3 := hstop h1
        rw [hconsfile] at h3
        rw [List.length_append, hlen1]
        push_cast
        push_cast at h3
        omega
      · rw [List.length_append, hlen1] at hf
        omega

/-- An element at a defined optional index is a member. -/
theorem mem_of_getElem? {α : Type} {l : List α} {i : Nat} {a : α}
    (h : l[i]? = some a) : a ∈ l := by
  obtain ⟨hlt, hget⟩ := List.getElem?_eq_some.mp h
  exact hget ▸ List.getElem_mem hlt

/-- A successful lookup names a record at some ordinal. -/
theorem lookupEntries_some_getElem {recs : List Entry} {key : Bytes} {v : Option Bytes}
    (h : lookupEntries recs key = some v) :
    ∃ (j : Nat) (ej : Entry), recs[j]? = some ej ∧ ej.1 = key ∧ ej.2 = v := by
  induction recs with
  | nil => cases h
  | cons e t ih =>
    rw [lookupEntries] at h
    by_cases hk : e.1 = key
    · rw [if_pos hk] at h
      injection h with h
      exact ⟨0, e, by simp, hk, h⟩
    · rw [if_neg hk] at h
      obtain ⟨j, ej, h1, h2, h3⟩ := ih h
      exact ⟨j + 1, ej, by simpa using h1, h2, h3⟩

/-- A failed lookup means no record carries the key. -/
theorem lookupEntries_none_getElem {recs : List Entry} {key : Bytes}
    (h : lookupEntries recs key = none) :
    ∀ (i : Nat) (e : Entry), recs[i]? = some e → e.1 ≠ key := by
  induction recs with
  | nil =>
    intro i e hi
    simp at hi
  | cons a t ih =>
    rw [lookupEntries] at h
    by_cases hk : a.1 = key
    · rw [if_pos hk] at h
      cases h
    · rw [if_neg hk] at h
      intro i e hi
      cases i with
      | zero =>
        rw [List.getElem?_cons_zero] at hi
        injection hi with hi
        rw [← hi]
        exact hk
      | succ j => exact ih h j e (by simpa using hi)

/-- Sparse scan with a matching record below: the scan terminates with
`ok = true`, a `from` that is the dense position of some record at or
before the match, and a `to` bound (when one is active) strictly beyond
the match's dense position. -/
theorem sparseScan_hit {recs : List Entry} (hs : SortedEntries recs)
    (key : Bytes) {j : Nat} {ej : Entry}
    (hj : recs[j]? = some ej) (hjk : ej.1 = key) :
    ∀ (ps : List (Bytes × Nat)) (frm : Int),
    (∀ p ∈ ps, ∃ (i : Nat) (e : Entry), recs[i]? = some e ∧ p = (e.1, densePos recs i)) →
    (frm = -1 ∨ ∃ (i0 : Nat) (e0 : Entry), i0 ≤ j ∧ recs[i0]? = some e0 ∧
      frm = ((densePos recs i0 : Nat) : Int)) →
    (frm = -1 → ∃ (p0 : Bytes × Nat) (t0 : List (Bytes × Nat)), ps = p0 :: t0 ∧ bytesCompare p0.1 key ≠ .gt) →
    ∃ frm0 toPos0, sparseScan key ps frm = (frm0, toPos0, true) ∧
      (∃ (i0 : Nat), i0 ≤ j ∧ frm0 = ((densePos recs i0 : Nat) : Int)) ∧
      (toPos0 > frm0 → ((densePos recs j : Nat) : Int) < toPos0) := by
  intro ps
  induction ps with
  | nil =>
    intro frm _ hfrm hhead
    rcases hfrm with hfc | ⟨i0, e0, hi0j, hi0, hfeq⟩
    · obtain ⟨p0, t0, hcon, -⟩ := hhead hfc
      cases hcon
    · have hne : frm ≠ -1 := by rw [hfeq]; omega
      refine ⟨frm, 0, ?_, ⟨i0, hi0j, hfeq⟩, ?_⟩
      · show (frm, (0 : Int), decide (frm ≠ -1)) = (frm, 0, true)
        rw [decide_eq_true hne]
      · intro hcon
        exfalso
        rw [hfeq] at hcon
        omega
  | cons p t ih =>
    intro frm hmem hfrm hhead
    obtain ⟨i, e, hie, hpe⟩ := hmem p (List.mem_cons_self _ _)
    obtain ⟨k, off⟩ := p
    have hk : k = e.1 := congrArg Prod.fst hpe
    have hoff : off = densePos recs i := congrArg Prod.snd hpe
    rw [sparseScan]
    cases hc : bytesCompare k key with
    | lt =>
      have hij : i < j :=
        sorted_lt_index hs hie hj (by rw [← hk, hjk]; exact hc)
      exact ih ((off : Nat) : Int)
        (fun q hq => hmem q (List.mem_cons_of_mem _ hq))
        (Or.inr ⟨i, e, Nat.le_of_lt hij, hie, by rw [hoff]⟩)
        (fun hcon => absurd hcon (by omega))
    | eq =>
      have hek : e.1 = key := by
        rw [← hk]
        exact (bytesCompare_eq_iff k key).mp hc
      have hij : i = j := sorted_key_inj hs hie hj (by rw [hek, hjk])
      refine ⟨(off : Int), (off : Int), rfl, ⟨i, le_of_eq hij, by rw [hoff]⟩, ?_⟩
      intro hcon
      exact absurd hcon (lt_irrefl _)
    | gt =>
      have hlt2 : bytesCompare ej.1 e.1 = .lt := by
        rw [hjk, ← hk]
        exact (bytesCompare_gt_iff_lt k key).mp hc
      have hji : j < i := sorted_lt_index hs hj hie hlt2
      have hilen : i ≤ recs.length := le_of_lt (List.getElem?_eq_some.mp hie).1
      by_cases hfm : frm = -1
      · obtain ⟨p0, t0, hcons, hp0⟩ := hhead hfm
        injection hcons with h1 h2
        rw [← h1] at hp0
        exact absurd hc hp0
      · rcases hfrm with hfc | ⟨i0, e0, hi0j, hi0, hfeq⟩
        · exact absurd hfc hfm
        · refine ⟨frm, (off : Int), ?_, ⟨i0, hi0j, hfeq⟩, ?_⟩
          · show (if frm = -1 then ((0 : Int), (0 : Int), false)
                else (frm, (off : Int), true)) = (frm, (off : Int), true)
            rw [if_neg hfm]
          · intro hcon
            have hdlt : densePos recs j < densePos recs i :=
              densePos_strict recs hji hilen
            rw [hoff]
            exact_mod_cast hdlt

/-- Sparse scan when no record carries the key: the scan either reports
`ok = false` or stops with a `from` that is some record's dense
position. -/
theorem sparseScan_miss (recs : List Entry) (key : Bytes)
    (habs : ∀ (i : Nat) (e : Entry), recs[i]? = some e → e.1 ≠ key) :
    ∀ (ps : List (Bytes × Nat)) (frm : Int),
    (∀ p ∈ ps, ∃ (i : Nat) (e : Entry), recs[i]? = some e ∧ p = (e.1, densePos recs i)) →
    (frm = -1 ∨ ∃ (i0 : Nat) (e0 : Entry), recs[i0]? = some e0 ∧
      frm = ((densePos recs i0 : Nat) : Int)) →
    (sparseScan key ps frm).2.2 = false ∨
      ∃ (i0 : Nat) (e0 : Entry), recs[i0]? = some e0 ∧
        (sparseScan key ps frm).1 = ((densePos recs i0 : Nat) : Int) := by
  intro ps
  induction ps with
  | nil =>
    intro frm _ hfrm
    rcases hfrm with rfl | ⟨i0, e0, hi0, hfeq⟩
    · left
      rfl
    · right
      exact ⟨i0, e0, hi0, hfeq⟩
  | cons p t ih =>
    intro frm hmem hfrm
    obtain ⟨i, e, hie, hpe⟩ := hmem p (List.mem_cons_self _ _)
    obtain ⟨k, off⟩ := p
    have hk : k = e.1 := congrArg Prod.fst hpe
    have hoff : off = densePos recs i := congrArg Prod.snd hpe
    rw [sparseScan]
    cases hc : bytesCompare k key with
    | lt =>
      exact ih ((off : Nat) : Int)
        (fun q hq => hmem q (List.mem_cons_of_mem _ hq))
        (Or.inr ⟨i, e, hie, by rw [hoff]⟩)
    | eq =>
      have hek : e.1 = key := by
        rw [← hk]
        exact (bytesCompare_eq_iff k key).mp hc
      exact absurd hek (habs i e hie)
    | gt =>
      by_cases hfm : frm = -1
      · left
        show ((if frm = -1 then ((0 : Int), (0 : Int), false)
            else (frm, (off : Int), true))).2.2 = false
        rw [if_pos hfm]
      · rcases hfrm with hfc | ⟨i0, e0, hi0, hfeq⟩
        · exact absurd hfc hfm
        · right
          refine ⟨i0, e0, hi0, ?_⟩
          show ((if frm = -1 then ((0 : Int), (0 : Int), false)
              else (frm, (off : Int), true))).1 = ((densePos recs i0 : Nat) : Int)
          rw [if_neg hfm]
          exact hfeq

/-- Dense entries of a record suffix carry record keys with their
absolute data offsets. -/
theorem denseEntries_drop_mem {recs : List Entry} {i0 : Nat} {p : Bytes × Nat}
    (hp : p ∈ denseEntries (recs.drop i0) (dataOffset recs i0)) :
    ∃ (ι : Nat) (e : Entry), recs[i0 + ι]? = some e ∧ p = (e.1, dataOffset recs (i0 + ι)) := by
  obtain ⟨ι, e, hget, hval⟩ := denseEntries_mem hp
  refine ⟨ι, e, ?_, ?_⟩
  · rw [← List.getElem?_drop]
    exact hget
  · rw [hval, dataOffset_add]

/-- Dense entries in a strict prefix of a record suffix. -/
theorem denseEntries_take_mem {recs : List Entry} {i0 m : Nat} {p : Bytes × Nat}
    (hp : p ∈ (denseEntries (recs.drop i0) (dataOffset recs i0)).take m) :
    ∃ (ι : Nat) (e : Entry), ι < m ∧ recs[i0 + ι]? = some e ∧ p = (e.1, dataOffset recs (i0 + ι)) := by
  rw [denseEntries_take] at hp
  obtain ⟨ι, e, hget, hval⟩ := denseEntries_mem hp
  have hlt : ι < m := by
    by_contra hge
    rw [List.getElem?_take, if_neg hge] at hget
    cases hget
  have hget' : (recs.drop i0)[ι]? = some e := by
    rw [List.getElem?_take, if_pos hlt] at hget
    exact hget
  have hco : dataOffset ((recs.drop i0).take m) ι = dataOffset (recs.drop i0) ι := by
    rw [dataOffset_eq, dataOffset_eq, List.take_take, Nat.min_eq_left (le_of_lt hlt)]
  refine ⟨ι, e, hlt, ?_, ?_⟩
  · rw [← List.getElem?_drop]
    exact hget'
  · rw [hval, hco, dataOffset_add]

/-- The single-run search over the files the writer produces for a
sorted, valid record sequence computes exactly the record lookup: a hit
returns the stored value (possibly a tombstone) with `true`, a miss
returns `(none, false)` with no error. -/
theorem searchInRun_correct (recs : List Entry) (N : Nat) (key : Bytes)
    (disk : Disk) (idx : Int)
    (hs : SortedEntries recs) (hv : ∀ e ∈ recs, ValidEntry e)
    (hdata : (runData recs).length < 2 ^ 64)
    (hdense : (denseIndexBytes recs 0).length < 2 ^ 64)
    (hd : diskGet disk idx = some (runFilesOf recs N)) :
    searchInSsTable disk idx key =
      .ok (match lookupEntries recs key with
           | some v => (v, true)
           | none => (none, false)) := by
  have hmemS : ∀ p ∈ sparseEntries recs 0 0 N,
      ∃ (i : Nat) (e : Entry), recs[i]? = some e ∧ p = (e.1, densePos recs i) := by
    intro p hp
    obtain ⟨i, e, hie, hpe⟩ := sparseEntries_mem hp
    exact ⟨i, e, hie, by simpa using hpe⟩
  have hkS : ∀ p ∈ sparseEntries recs 0 0 N, p.1.length ≤ 65535 := by
    intro p hp
    obtain ⟨i, e, hie, hpe⟩ := hmemS p hp
    have hp1 : p.1 = e.1 := by rw [hpe]
    rw [hp1]
    exact (hv e (mem_of_getElem? hie)).1
  have hoffS : ∀ p ∈ sparseEntries recs 0 0 N, p.2 < 2 ^ 64 := by
    intro p hp
    obtain ⟨i, e, hie, hpe⟩ := hmemS p hp
    have hp2 : p.2 = densePos recs i := by rw [hpe]
    rw [hp2]
    exact Nat.lt_of_le_of_lt (densePos_le recs i) hdense
  have hsp : searchInSparseIndex (sparseIndexBytes recs 0 0 N) key =
      .ok (sparseScan key (sparseEntries recs 0 0 N) (-1)) := by
    rw [searchInSparseIndex, sparseIndexBytes_eq_keyOffsetFile]
    exact sparseLoop_spec key _ _ _ hkS hoffS (Nat.lt_succ_self _)
  rcases hlook : lookupEntries recs key with _ | v
  · -- miss: no record carries the key
    have habs := lookupEntries_none_getElem hlook
    rcases hscan : sparseScan key (sparseEntries recs 0 0 N) (-1) with ⟨frm0, toPos0, ok0⟩
    have hclass := sparseScan_miss recs key habs (sparseEntries recs 0 0 N) (-1)
      hmemS (Or.inl rfl)
    rw [hscan] at hclass
    have hsp2 : searchInSparseIndex (sparseIndexBytes recs 0 0 N) key =
        .ok (frm0, toPos0, ok0) := by rw [hsp, hscan]
    cases ok0 with
    | false => simp [searchInSsTable, hd, runFilesOf, hsp2]
    | true =>
      rcases hclass with hfalse | ⟨i0, e0, hi0, hfrm0⟩
      · cases hfalse
      · have hfrm0' : frm0 = ((densePos recs i0 : Nat) : Int) := hfrm0
        have hindex : searchInIndex (denseIndexBytes recs 0) frm0 toPos0 key =
            .ok (0, false) := by
          rw [searchInIndex, if_neg (by rw [hfrm0']; omega)]
          rw [hfrm0', Int.toNat_ofNat]
          rw [denseIndexBytes_drop recs 0 i0, Nat.zero_add,
            denseIndexBytes_eq_keyOffsetFile]
          refine indexLoop_miss key _ toPos0 _ _ _ ?_ ?_ ?_ (Nat.lt_succ_self _)
          · intro p hp
            obtain ⟨ι, e, hget, hval⟩ := denseEntries_drop_mem hp
            have hp1 : p.1 = e.1 := by rw [hval]
            rw [hp1]
            exact (hv e (mem_of_getElem? hget)).1
          · intro p hp
            obtain ⟨ι, e, hget, hval⟩ := denseEntries_drop_mem hp
            have hp2 : p.2 = dataOffset recs (i0 + ι) := by rw [hval]
            rw [hp2]
            exact Nat.lt_of_le_of_lt (dataOffset_le recs _) hdata
          · intro p hp
            obtain ⟨ι, e, hget, hval⟩ := denseEntries_drop_mem hp
            have hp1 : p.1 = e.1 := by rw [hval]
            rw [hp1]
            exact habs _ e hget
        have hdat : searchInDataFile (runData recs) 0 key = .ok (none, false) := by
          rw [searchInDataFile, List.drop_zero]
          rw [dataLoop_spec key recs _ hv (Nat.lt_succ_self _), hlook]
        simp [searchInSsTable, hd, runFilesOf, hsp2, hindex, hdat]
  · -- hit: the key sits at ordinal j
    obtain ⟨j, ej, hj, hjk, hjv⟩ := lookupEntries_some_getElem hlook
    have hjlt : j < recs.length := (List.getElem?_eq_some.mp hj).1
    obtain ⟨r0, rt, hrecs⟩ : ∃ (r0 : Entry) (rt : List Entry), recs = r0 :: rt := by
      cases recs with
      | nil => simp at hjlt
      | cons a b => exact ⟨a, b, rfl⟩
    have hheadS : sparseEntries recs 0 0 N =
        (r0.1, 0) :: sparseEntries rt 1 (indexFrameLen r0) N := by
      rw [hrecs]
      simp [sparseEntries]
    have h0 : recs[0]? = some r0 := by rw [hrecs]; simp
    have hheadcmp : bytesCompare r0.1 key ≠ .gt := by
      rcases Nat.eq_zero_or_pos j with hj0 | hj0
      · rw [hj0, h0] at hj
        injection hj with hj
        rw [hj, hjk, bytesCompare_self]
        simp
      · have hlt0 := sorted_getElem?_lt hs hj0 h0 hj
        rw [hjk] at hlt0
        rw [hlt0]
        simp
    obtain ⟨frm0, toPos0, hscan, ⟨i0, hi0j, hfrm0⟩, hbnd⟩ :=
      sparseScan_hit hs key hj hjk (sparseEntries recs 0 0 N) (-1) hmemS (Or.inl rfl)
        (fun _ => ⟨(r0.1, 0), _, hheadS, hheadcmp⟩)
    have hsp2 : searchInSparseIndex (sparseIndexBytes recs 0 0 N) key =
        .ok (frm0, toPos0, true) := by rw [hsp, hscan]
    have hij : i0 + (j - i0) = j := by omega
    have hdropj : (recs.drop i0)[j - i0]? = some ej := by
      rw [List.getElem?_drop, hij, hj]
    have hoffj : dataOffset recs i0 + dataOffset (recs.drop i0) (j - i0) =
        dataOffset recs j := by
      rw [← dataOffset_add, hij]
    have hDm : (denseEntries (recs.drop i0) (dataOffset recs i0))[j - i0]? =
        some (key, dataOffset recs j) := by
      simp only [denseEntries_getElem, hdropj, Option.map_some']
      rw [hjk, hoffj]
    have hsplit : denseEntries (recs.drop i0) (dataOffset recs i0) =
        (denseEntries (recs.drop i0) (dataOffset recs i0)).take (j - i0) ++
          (key, dataOffset recs j) ::
            (denseEntries (recs.drop i0) (dataOffset recs i0)).drop (j - i0 + 1) := by
      obtain ⟨hlt, hget⟩ := List.getElem?_eq_some.mp hDm
      conv_lhs => rw [← List.take_append_drop (j - i0)
        (denseEntries (recs.drop i0) (dataOffset recs i0)),
        List.drop_eq_getElem_cons hlt, hget]
    have hhit : searchInIndex (denseIndexBytes recs 0) frm0 toPos0 key =
        .ok (dataOffset recs j, true) := by
      rw [searchInIndex, if_neg (by rw [hfrm0]; omega)]
      rw [hfrm0, Int.toNat_ofNat]
      rw [denseIndexBytes_drop recs 0 i0, Nat.zero_add,
        denseIndexBytes_eq_keyOffsetFile]
      conv_lhs => rw [hsplit]
      refine indexLoop_hit key _ toPos0 (dataOffset recs j) _ _ _ _
        ?_ ?_ ?_ ?_ ?_ ?_ (Nat.lt_succ_self _)
      · intro p hp
        obtain ⟨ι, e, hιm, hget, hval⟩ := denseEntries_take_mem hp
        have hp1 : p.1 = e.1 := by rw [hval]
        rw [hp1]
        exact (hv e (mem_of_getElem? hget)).1
      · intro p hp
        obtain ⟨ι, e, hιm, hget, hval⟩ := denseEntries_take_mem hp
        have hp2 : p.2 = dataOffset recs (i0 + ι) := by rw [hval]
        rw [hp2]
        exact Nat.lt_of_le_of_lt (dataOffset_le recs _) hdata
      · intro p hp
        obtain ⟨ι, e, hιm, hget, hval⟩ := denseEntries_take_mem hp
        have hp1 : p.1 = e.1 := by rw [hval]
        rw [hp1]
        intro hcon
        have := sorted_key_inj hs hget hj (by rw [hcon, hjk])
        omega
      · rw [← hjk]
        exact (hv ej (mem_of_getElem? hj)).1
      · exact Nat.lt_of_le_of_lt (dataOffset_le recs j) hdata
      · intro hgt
        have hb := hbnd (by rw [hfrm0]; exact hgt)
        have hlen : densePos recs i0 +
            (keyOffsetFile ((denseEntries (recs.drop i0)
              (dataOffset recs i0)).take (j - i0))).length =
            densePos recs j := by
          rw [denseEntries_take, ← denseIndexBytes_eq_keyOffsetFile,
            denseIndexBytes_length, ← densePos_eq_sum, ← densePos_add, hij]
        omega
    have hdat : searchInDataFile (runData recs) (dataOffset recs j) key =
        .ok (v, true) := by
      rw [searchInDataFile, runData_drop]
      have hdropj2 : recs.drop j = ej :: recs.drop (j + 1) := by
        obtain ⟨hlt, hget⟩ := List.getElem?_eq_some.mp hj
        rw [List.drop_eq_getElem_cons hlt, hget]
      rw [hdropj2]
      have hvd : ∀ e ∈ ej :: recs.drop (j + 1), ValidEntry e := by
        intro e he
        apply hv
        rw [← hdropj2] at he
        exact List.mem_of_mem_drop he
      rw [dataLoop_spec key (ej :: recs.drop (j + 1)) _ hvd (Nat.lt_succ_self _)]
      rw [lookupEntries, if_pos hjk, hjv]
    simp [searchInSsTable, hd, runFilesOf, hsp2, hhit, hdat, hlook]

/-- The single-run search depends on the directory only through the
files at the probed index. -/
theorem searchInSsTable_ext (d d' : Disk) (idx : Int) (key : Bytes)
    (h : diskGet d' idx = diskGet d idx) :
    searchInSsTable d' idx key = searchInSsTable d idx key := by
  rw [searchInSsTable, searchInSsTable, h]

def trailC3 : LSMState :=
  (lsmPutAll (lsmOpen 3 10 1)
    [([101], [61]), ([102], [62]), ([103], [63]), ([104], [64])]).1

/-- C3 (counterexample): the run-set descent claim fails on the code.
With two runs on disk (`max_index = 1`, `run_count = 2`) and the key
`[101]` present only in run 0 — squarely inside the claimed probe window
`max_index … max_index − run_count + 1` — `Get` returns `found = false`:
it never probes any run below `max_index`. -/
theorem claim_C3_counterexample :
    trailC3.ssTableNum = 2 ∧
    trailC3.maxSsTableIndex = 1 ∧
    memGet trailC3.mt [101] = none ∧
    searchInSsTable trailC3.disk 0 [101] = .ok (some [61], true) ∧
    lsmGet trailC3 [101] = .ok (none, false) := by
  decide

/-- C3 (amended): when the key misses the memtable, `Get` probes exactly
one run — the one at `max_index`.  First, its result depends only on the
files stored at that index: changing or removing every other run leaves
it unchanged.  Second, on the probed run itself the two-level search is
correct: when the run holds the writer's files for a sorted, valid
record sequence, `Get` returns the stored value with `true` on a hit and
`(none, false)` with no error on a miss. -/
theorem claim_C3_amended :
    (∀ (st : LSMState) (d' : Disk) (key : Bytes),
      memGet st.mt key = none →
      diskGet d' st.maxSsTableIndex = diskGet st.disk st.maxSsTableIndex →
      lsmGet { st with disk := d' } key = lsmGet st key) ∧
    (∀ (st : LSMState) (key : Bytes) (recs : List Entry) (N : Nat),
      memGet st.mt key = none →
      SortedEntries recs → (∀ e ∈ recs, ValidEntry e) →
      (runData recs).length < 2 ^ 64 →
      (denseIndexBytes recs 0).length < 2 ^ 64 →
      diskGet st.disk st.maxSsTableIndex = some (runFilesOf recs N) →
      lsmGet st key = .ok (match lookupEntries recs key with
                           | some v => (v, true)
                           | none => (none, false))) := by
  constructor
  · intro st d' key hmem hdg
    simp only [lsmGet, hmem]
    exact searchInSsTable_ext st.disk d' st.maxSsTableIndex key hdg
  · intro st key recs N hmem hs hv hdata hdense hdg
    simp only [lsmGet, hmem]
    exact searchInRun_correct recs N key st.disk st.maxSsTableIndex hs hv hdata hdense hdg

def trailC3w : LSMState :=
  (lsmPutAll (lsmOpen 3 10 1) [([10], [1]), ([11], [2])]).1

/-- Witness for C3 (amended): a concrete flushed state on which the
amended theorem's hypotheses hold by evaluation. -/
theorem claim_C3_amended_witness :
    lsmGet trailC3w [10] = .ok (some [1], true) ∧
    lsmGet { trailC3w with
        disk := [(0, runFilesOf [([10], some [1]), ([11], some [2])] 1)] } [10] =
      lsmGet trailC3w [10] := by
  constructor
  · exact (claim_C3_amended.2 trailC3w [10] [([10], some [1]), ([11], some [2])] 1
      (by decide) (by decide) (by decide) (by decide) (by decide) (by decide)).trans
      (by decide)
  · exact claim_C3_amended.1 trailC3w
      [(0, runFilesOf [([10], some [1]), ([11], some [2])] 1)] [10]
      (by decide) (by decide)

end LsmTree













